import Mathlib

/-!
Verification development for the flexible JSON normalizer of the
API Response Explorer (`AppShell.tsx`).

The core functions are translated from the source:
  * `parseJsonSafely`   : strict `JSON.parse` wrapped in try/catch; in the
    source the JavaScript value `null` is both the decoded form of the JSON
    document `null` and the failure sentinel, so the two are conflated.
  * `parseJsonFlexible` : the staged textual-rewrite pipeline
    (block/line comment stripping, single-quote rewriting, bare-key quoting,
    trailing-comma removal, `undefined` -> `null`) followed by a reparse.
  * `extractPaths`, `filterPaths`, `createValuePreview`, `buildJsonTree`,
    `filterTreeByQuery`, `applyPastedJson` from the same file.

Modelling notes.  Texts are `List Char` / `String`.  Each JavaScript global
regex replacement is modelled as the equivalent one-pass left-to-right
scanner (the regexes involved are deterministic: their greedy parts range
over character classes disjoint from what may follow, so no backtracking
can produce a different match).  JavaScript numbers are IEEE-754 doubles:
`JSON.parse` rounds the numeral's exact decimal value to the nearest
double, overflowing to `Infinity` at magnitude `2^1024 - 2^970` (the
rounding boundary of the format), and `JSON.stringify` prints `null` for
a non-finite number.  The model computes the overflow comparison exactly
(`numOverflows`, on the numeral's exact value) and represents an
overflowed numeral as `Json.inf`; a finite numeral keeps its token text
(`Json.num`).  The token stands in for the finite double it rounds to:
serializing a finite double prints its shortest decimal form, which
re-parses to the same double, so properties that only compare values
after a reparse (everything proved here) cannot distinguish the two
representations -- except through Infinity, which is modelled.
`JSON.parse` strings are sequences of Unicode scalar values; surrogate
escape pairs are combined, and a lone surrogate escape (representable in a
JavaScript string but not as a scalar value) makes the parse fail.
Recursive scanners take an explicit fuel argument; the wrappers pass
`length + 1`, which every scanner (consuming at least one character per
step) can never exhaust.
-/

set_option maxRecDepth 8192

/-- Double-quote character. -/
def dqC : Char := Char.ofNat 34

/-- Single-quote character. -/
def sqC : Char := Char.ofNat 39

/-- Backslash character. -/
def bsC : Char := Char.ofNat 92

/-- Left brace character. -/
def lbC : Char := Char.ofNat 123

/-- Right brace character. -/
def rbC : Char := Char.ofNat 125

/-- JavaScript regex `\s` / `String.trim` whitespace class. -/
def isReWs (c : Char) : Bool :=
  c = ' ' || c = '\t' || c = '\n' || c = '\r' || c = Char.ofNat 11 ||
  c = Char.ofNat 12 || c = Char.ofNat 160 || c = Char.ofNat 0x1680 ||
  (Char.ofNat 0x2000 ≤ c && c ≤ Char.ofNat 0x200a) ||
  c = Char.ofNat 0x2028 || c = Char.ofNat 0x2029 || c = Char.ofNat 0x202f ||
  c = Char.ofNat 0x205f || c = Char.ofNat 0x3000 || c = Char.ofNat 0xfeff

/-- JavaScript regex line terminators (what `.` does not match and what
multiline `^` anchors after). -/
def isLineTerm (c : Char) : Bool :=
  c = '\n' || c = '\r' || c = Char.ofNat 0x2028 || c = Char.ofNat 0x2029

/-- JavaScript regex word character class `\w` (used by `\b`). -/
def isWordChar (c : Char) : Bool := c.isAlphanum || c = '_'

/-- Does `pat` occur as an initial segment of `hay`? -/
def matchesAt : List Char → List Char → Bool
  | _, [] => true
  | [], _ :: _ => false
  | h :: t, p :: ps => h = p && matchesAt t ps

/-- Does `pat` occur as a contiguous sublist of `hay`
(JavaScript `String.prototype.includes`)? -/
def hasSub : List Char → List Char → Bool
  | hay, pat =>
    matchesAt hay pat ||
      match hay with
      | [] => false
      | _ :: t => hasSub t pat

/-- Scan for the first occurrence of the two characters `*` `/` and return
what follows it; `none` when there is no such occurrence.  This is the
extent search of the lazy regex `\/\*[\s\S]*?\*\//`. -/
def findClose : List Char → Option (List Char)
  | [] => none
  | c :: rest =>
    if c = '*' then
      match rest with
      | d :: rest2 => if d = '/' then some rest2 else findClose rest
      | [] => none
    else findClose rest

/-- Fuelled scanner for `text.replace(/\/\*[\s\S]*?\*\//g, "")`: every
`/*` with a later `*/` is removed together with the shortest enclosed
text; an unclosed `/*` is kept verbatim (the regex cannot match there,
nor at any later position). -/
def sbcF : Nat → List Char → List Char
  | 0, l => l
  | fuel + 1, l =>
    match l with
    | [] => []
    | c :: rest =>
      if c = '/' then
        match rest with
        | d :: rest2 =>
          if d = '*' then
            match findClose rest2 with
            | some rest3 => sbcF fuel rest3
            | none => c :: d :: rest2
          else c :: sbcF fuel rest
        | [] => [c]
      else c :: sbcF fuel rest

/-- Stage 1 of the lenient pipeline: remove `/* ... */` block comments. -/
def stripBlockComments (l : List Char) : List Char := sbcF (l.length + 1) l

/-- Does the text start with two slashes? -/
def twoSlash : List Char → Bool
  | c :: d :: _ => c = '/' && d = '/'
  | _ => false

/-- Fuelled scanner for `text.replace(/(^|\s)\/\/.*$/gm, "")`.  The flag
records whether the current position is at the start of a line (start of
input or just after a line terminator), where the zero-width `^`
alternative can match; otherwise a whitespace character directly before
the `//` marker is consumed as part of the match. -/
def glcF : Nat → Bool → List Char → List Char
  | 0, _, l => l
  | fuel + 1, atLS, l =>
    match l with
    | [] => []
    | c :: rest =>
      if atLS && twoSlash l then
        glcF fuel false (l.dropWhile (fun x => !isLineTerm x))
      else if isReWs c && twoSlash rest then
        glcF fuel false (rest.dropWhile (fun x => !isLineTerm x))
      else c :: glcF fuel (isLineTerm c) rest

/-- Stage 2 of the lenient pipeline: remove `//` line comments that are at
a line start or preceded by a whitespace character. -/
def stripLineComments (l : List Char) : List Char := glcF (l.length + 1) true l

/-- Body scanner of the single-quoted-literal regex `'([^'\\]|\\.)*'`:
starting just after an opening quote, return the matched inner text and
the remainder after the closing quote.  A backslash escapes the next
character unless that character is a line terminator (which `.` cannot
match); in that failure case no match beginning at this opening quote
exists (backtracking cannot help, because no give-back position exposes a
closing quote). -/
def scanSQBody : List Char → Option (List Char × List Char)
  | [] => none
  | c :: rest =>
    if c = sqC then some ([], rest)
    else if c = bsC then
      match rest with
      | [] => none
      | d :: rest2 =>
        if isLineTerm d then none
        else (scanSQBody rest2).map (fun p => (c :: d :: p.1, p.2))
    else (scanSQBody rest).map (fun p => (c :: p.1, p.2))

/-- The inner-text rewrite `.replace(/\\'/g, "'")`: each backslash
single-quote pair becomes a single quote. -/
def unescSq : List Char → List Char
  | a :: b :: rest =>
    if a = bsC && b = sqC then sqC :: unescSq rest
    else a :: unescSq (b :: rest)
  | l => l

/-- The inner-text rewrite `.replace(/"/g, '\\"')`: each double quote is
escaped. -/
def escDq : List Char → List Char
  | [] => []
  | c :: rest => if c = dqC then bsC :: dqC :: escDq rest else c :: escDq rest

/-- Fuelled scanner for stage 3, `text.replace(/'([^'\\]|\\.)*'/g, ...)`:
every single-quoted literal becomes a double-quoted one with `\'`
unescaped and `"` escaped. -/
def rsqF : Nat → List Char → List Char
  | 0, l => l
  | fuel + 1, l =>
    match l with
    | [] => []
    | c :: rest =>
      if c = sqC then
        match scanSQBody rest with
        | some (inner, rest2) =>
          dqC :: (escDq (unescSq inner) ++ dqC :: rsqF fuel rest2)
        | none => c :: rsqF fuel rest
      else c :: rsqF fuel rest

/-- Stage 3 of the lenient pipeline: single-quoted strings become
double-quoted strings. -/
def replaceSingleQuotes (l : List Char) : List Char := rsqF (l.length + 1) l

/-- First character of a bare identifier, `[A-Za-z_]`. -/
def isIdStart (c : Char) : Bool := c.isAlpha || c = '_'

/-- Later character of a bare identifier, `[A-Za-z0-9_\-]`. -/
def isIdChar (c : Char) : Bool := c.isAlphanum || c = '_' || c = '-'

/-- Matcher for the tail of the key regex
`([\{,]\s*)([A-Za-z_][A-Za-z0-9_\-]*)(\s*:\s*)` (everything after the
opening `{` or `,`): returns the leading whitespace, the identifier, the
whitespace before the colon, the whitespace after it, and the remainder. -/
def scanKey (l : List Char) :
    Option (List Char × List Char × List Char × List Char × List Char) :=
  let ws1 := l.takeWhile isReWs
  match l.dropWhile isReWs with
  | [] => none
  | c :: t =>
    if isIdStart c then
      let idt := t.takeWhile isIdChar
      let l2 := t.dropWhile isIdChar
      let ws2 := l2.takeWhile isReWs
      match l2.dropWhile isReWs with
      | d :: l4 =>
        if d = ':' then
          some (ws1, c :: idt, ws2, l4.takeWhile isReWs, l4.dropWhile isReWs)
        else none
      | [] => none
    else none

/-- Fuelled scanner for stage 4: after every `{` or `,`, a bare identifier
followed by a colon is wrapped in double quotes. -/
def qkF : Nat → List Char → List Char
  | 0, l => l
  | fuel + 1, l =>
    match l with
    | [] => []
    | c :: rest =>
      if c = lbC || c = ',' then
        match scanKey rest with
        | some (ws1, key, ws2, ws3, rest2) =>
          c :: (ws1 ++ dqC :: (key ++ dqC :: (ws2 ++ ':' :: (ws3 ++ qkF fuel rest2))))
        | none => c :: qkF fuel rest
      else c :: qkF fuel rest

/-- Stage 4 of the lenient pipeline: quote bare object keys. -/
def quoteKeys (l : List Char) : List Char := qkF (l.length + 1) l

/-- Fuelled scanner for stage 5, `text.replace(/,\s*([}\]])/g, '$1')`:
a comma followed by optional whitespace and a closing bracket is removed
together with that whitespace. -/
def rtcF : Nat → List Char → List Char
  | 0, l => l
  | fuel + 1, l =>
    match l with
    | [] => []
    | c :: rest =>
      if c = ',' then
        match rest.dropWhile isReWs with
        | d :: r2 =>
          if d = rbC || d = ']' then d :: rtcF fuel r2
          else c :: rtcF fuel rest
        | [] => c :: rtcF fuel rest
      else c :: rtcF fuel rest

/-- Stage 5 of the lenient pipeline: remove trailing commas. -/
def removeTrailingCommas (l : List Char) : List Char := rtcF (l.length + 1) l

/-- The characters of the bare word `undefined`. -/
def undChars : List Char := ['u', 'n', 'd', 'e', 'f', 'i', 'n', 'e', 'd']

/-- Word-boundary check on the preceding character (`none` at the start of
the text). -/
def prevBoundary : Option Char → Bool
  | none => true
  | some p => !isWordChar p

/-- Word-boundary check on the following text. -/
def nextBoundary : List Char → Bool
  | [] => true
  | c :: _ => !isWordChar c

/-- Fuelled scanner for stage 6, `text.replace(/\bundefined\b/g, 'null')`:
every occurrence of `undefined` between word boundaries becomes `null`. -/
def ruF : Nat → Option Char → List Char → List Char
  | 0, _, l => l
  | fuel + 1, prev, l =>
    match l with
    | [] => []
    | c :: rest =>
      if matchesAt l undChars && prevBoundary prev && nextBoundary (l.drop 9) then
        'n' :: 'u' :: 'l' :: 'l' :: ruF fuel (some 'd') (l.drop 9)
      else c :: ruF fuel (some c) rest

/-- Stage 6 of the lenient pipeline: replace the bare word `undefined`
with `null`. -/
def replaceUndefined (l : List Char) : List Char := ruF (l.length + 1) none l

/-- The full textual rewrite applied by `parseJsonFlexible` when the
strict fast path fails (stages 1-6, in source order). -/
def flexText (l : List Char) : List Char :=
  replaceUndefined (removeTrailingCommas (quoteKeys
    (replaceSingleQuotes (stripLineComments (stripBlockComments l)))))

/-- The canonical JSON value produced by a successful parse.  `num` keeps
the numeral token text of a finite number and `inf` (with a sign flag)
is the JavaScript `Infinity` that an overflowing numeral decodes to (see
the modelling notes at the top of the file). -/
inductive Json where
  | null : Json
  | bool : Bool → Json
  | num : String → Json
  | inf : Bool → Json
  | str : String → Json
  | arr : List Json → Json
  | obj : List (String × Json) → Json

/-- JSON insignificant whitespace. -/
def jsonWs (c : Char) : Bool := c = ' ' || c = '\t' || c = '\n' || c = '\r'

/-- Drop JSON whitespace. -/
def skipWs (l : List Char) : List Char := l.dropWhile jsonWs

/-- Value of one hexadecimal digit. -/
def hexVal (c : Char) : Option Nat :=
  if c.isDigit then some (c.toNat - 48)
  else if 'a' ≤ c ∧ c ≤ 'f' then some (c.toNat - 87)
  else if 'A' ≤ c ∧ c ≤ 'F' then some (c.toNat - 55)
  else none

/-- Decoded character of a simple (non-`u`) escape, `none` when the
escape character is not one of the eight JSON escapes. -/
def escSimple (e : Char) : Option Char :=
  if e = dqC then some dqC
  else if e = bsC then some bsC
  else if e = '/' then some '/'
  else if e = 'b' then some (Char.ofNat 8)
  else if e = 'f' then some (Char.ofNat 12)
  else if e = 'n' then some '\n'
  else if e = 'r' then some '\r'
  else if e = 't' then some '\t'
  else none

/-- Value of four hexadecimal digits. -/
def hex4v (a b c d : Char) : Option Nat :=
  match hexVal a, hexVal b, hexVal c, hexVal d with
  | some ha, some hb, some hc, some hd =>
    some (ha * 4096 + hb * 256 + hc * 16 + hd)
  | _, _, _, _ => none

/-- Decode a `u` escape starting at its first hexadecimal digit: four hex
digits; a high surrogate must be followed by a second `\u` escape holding
a low surrogate, and the pair is combined into one scalar value.  Returns
the decoded character and the remainder. -/
def uEsc : List Char → Option (Char × List Char)
  | a :: b :: c2 :: d :: rest3 =>
    match hex4v a b c2 d with
    | some h =>
      if h < 0xd800 ∨ 0xdfff < h then some (Char.ofNat h, rest3)
      else if h ≤ 0xdbff then
        match rest3 with
        | u1 :: u2 :: a2 :: b2 :: c3 :: d2 :: rest4 =>
          if u1 = bsC ∧ u2 = 'u' then
            match hex4v a2 b2 c3 d2 with
            | some lo =>
              if 0xdc00 ≤ lo ∧ lo ≤ 0xdfff then
                some (Char.ofNat (0x10000 + (h - 0xd800) * 1024 + (lo - 0xdc00)),
                  rest4)
              else none
            | none => none
          else none
        | _ => none
      else none
    | none => none
  | _ => none

/-- Fuelled scanner for the body of a JSON string after the opening
quote: the decoded characters and the remainder after the closing quote.
Raw control characters are rejected; escapes are decoded by `escSimple`
and `uEsc`. -/
def psbF : Nat → List Char → Option (List Char × List Char)
  | 0, _ => none
  | fuel + 1, l =>
    match l with
    | [] => none
    | c :: rest =>
      if c = dqC then some ([], rest)
      else if c = bsC then
        match rest with
        | [] => none
        | e :: rest2 =>
          match escSimple e with
          | some ch => (psbF fuel rest2).map (fun p => (ch :: p.1, p.2))
          | none =>
            if e = 'u' then
              match uEsc rest2 with
              | some (ch, rest3) => (psbF fuel rest3).map (fun p => (ch :: p.1, p.2))
              | none => none
            else none
      else if c.toNat < 32 then none
      else (psbF fuel rest).map (fun p => (c :: p.1, p.2))

/-- Parse the body of a JSON string just after the opening quote. -/
def parseStringBody (l : List Char) : Option (List Char × List Char) :=
  psbF (l.length + 1) l

/-- Fraction part of a JSON numeral: a dot followed by at least one digit;
otherwise nothing is consumed. -/
def numFrac : List Char → List Char × List Char
  | c :: t =>
    if c = '.' then
      let ds := t.takeWhile Char.isDigit
      if ds = [] then ([], c :: t) else (c :: ds, t.dropWhile Char.isDigit)
    else ([], c :: t)
  | [] => ([], [])

/-- Exponent part of a JSON numeral: `e` or `E`, an optional sign, and at
least one digit; otherwise nothing is consumed. -/
def numExp : List Char → List Char × List Char
  | c :: t =>
    if c = 'e' ∨ c = 'E' then
      match t with
      | s :: t2 =>
        if s = '+' ∨ s = '-' then
          let ds := t2.takeWhile Char.isDigit
          if ds = [] then ([], c :: t) else (c :: s :: ds, t2.dropWhile Char.isDigit)
        else
          let ds := t.takeWhile Char.isDigit
          if ds = [] then ([], c :: t) else (c :: ds, t.dropWhile Char.isDigit)
      | [] => ([], [c])
    else ([], c :: t)
  | [] => ([], [])

/-- Unsigned JSON numeral: integer part (`0` or a nonzero digit followed
by digits), then optional fraction and exponent.  Returns the token and
the remainder. -/
def parseNumCore : List Char → Option (List Char × List Char)
  | c :: t =>
    if c = '0' then
      let (f, l2) := numFrac t
      let (e, l3) := numExp l2
      some ('0' :: (f ++ e), l3)
    else if c.isDigit then
      let ds := t.takeWhile Char.isDigit
      let l1 := t.dropWhile Char.isDigit
      let (f, l2) := numFrac l1
      let (e, l3) := numExp l2
      some (c :: (ds ++ f ++ e), l3)
    else none
  | [] => none

/-- JSON numeral with optional leading minus sign. -/
def parseNumber (l : List Char) : Option (List Char × List Char) :=
  match l with
  | c :: t =>
    if c = '-' then (parseNumCore t).map (fun p => (c :: p.1, p.2))
    else parseNumCore l
  | [] => none

/-- Numeric value of a string of decimal digits (most significant
first). -/
def digitsVal (ds : List Char) : Nat :=
  ds.foldl (fun a c => 10 * a + (c.toNat - 48)) 0

/-- Sign of a numeral token. -/
def tokNeg : List Char → Bool
  | '-' :: _ => true
  | _ => false

/-- Exact decimal magnitude of a numeral token, as mantissa and
power-of-ten exponent: the token denotes `m * 10 ^ e` up to sign. -/
def numParts (tok : List Char) : Nat × Int :=
  let t := match tok with
    | '-' :: r => r
    | r => r
  let ipart := t.takeWhile Char.isDigit
  let rest1 := t.dropWhile Char.isDigit
  let fpart := match rest1 with
    | '.' :: r => r.takeWhile Char.isDigit
    | _ => []
  let rest2 := match rest1 with
    | '.' :: r => r.dropWhile Char.isDigit
    | _ => rest1
  let ev : Int := match rest2 with
    | _ :: '+' :: ds => (digitsVal ds : Int)
    | _ :: '-' :: ds => -(digitsVal ds : Int)
    | _ :: ds => (digitsVal ds : Int)
    | [] => 0
  (digitsVal (ipart ++ fpart), ev - fpart.length)

/-- Overflow threshold of the IEEE double format: under the
round-to-nearest-even conversion performed by `JSON.parse`, exact values
of magnitude at least `2^1024 - 2^970` (the midpoint between the largest
finite double and `2^1024`) become `Infinity`. -/
def dblOverflowT : Nat := 2 ^ 1024 - 2 ^ 970

/-- Does `JSON.parse` turn this numeral token into an infinity? -/
def numOverflows (tok : List Char) : Bool :=
  let p := numParts tok
  if 0 ≤ p.2 then decide (dblOverflowT ≤ p.1 * 10 ^ p.2.toNat)
  else decide (dblOverflowT * 10 ^ (-p.2).toNat ≤ p.1)

/-- Set a member of an object: when the key is already present its value
is replaced in place (the key keeps its original position), otherwise the
member is appended.  This is the property-definition order of JavaScript
object literals and of `JSON.parse`. -/
def setMember : List (String × Json) → String → Json → List (String × Json)
  | [], k, v => [(k, v)]
  | (k0, v0) :: t, k, v =>
    if k0 = k then (k, v) :: t else (k0, v0) :: setMember t k v

/-- Resolve duplicate keys the way `JSON.parse` does: later occurrences
overwrite the value but keep the first occurrence's position. -/
def dedupMembers (ms : List (String × Json)) : List (String × Json) :=
  ms.foldl (fun acc kv => setMember acc kv.1 kv.2) []

/-- Array-element loop of the parser, parameterised by the value parser:
parse a value, then either a comma and further elements or the closing
bracket. -/
def parseArrAux (pv : List Char → Option (Json × List Char)) :
    Nat → List Char → Option (List Json × List Char)
  | 0, _ => none
  | fuel + 1, l =>
    match pv l with
    | none => none
    | some (v, r) =>
      match skipWs r with
      | c :: r2 =>
        if c = ',' then (parseArrAux pv fuel r2).map (fun p => (v :: p.1, p.2))
        else if c = ']' then some ([v], r2)
        else none
      | [] => none

/-- Object-member loop of the parser, parameterised by the value parser:
parse a quoted key, a colon, a value, then either a comma and further
members or the closing brace. -/
def parseObjAux (pv : List Char → Option (Json × List Char)) :
    Nat → List Char → Option (List (String × Json) × List Char)
  | 0, _ => none
  | fuel + 1, l =>
    match skipWs l with
    | c :: r =>
      if c = dqC then
        match parseStringBody r with
        | some (kcs, r1) =>
          match skipWs r1 with
          | d :: r2 =>
            if d = ':' then
              match pv r2 with
              | some (v, r3) =>
                match skipWs r3 with
                | e :: r4 =>
                  if e = ',' then
                    (parseObjAux pv fuel r4).map (fun p => ((⟨kcs⟩, v) :: p.1, p.2))
                  else if e = rbC then some ([(⟨kcs⟩, v)], r4)
                  else none
                | [] => none
              | none => none
            else none
          | [] => none
        | none => none
      else none
    | [] => none

/-- Fuelled JSON value parser (the conformant `JSON.parse` grammar):
skip whitespace, then dispatch on the first character between the literal
words, strings, arrays, objects, and numerals. -/
def parseValue : Nat → List Char → Option (Json × List Char)
  | 0, _ => none
  | fuel + 1, l =>
    match skipWs l with
    | [] => none
    | c :: r =>
      if c = 'n' then
        match r with
        | 'u' :: 'l' :: 'l' :: r2 => some (.null, r2)
        | _ => none
      else if c = 't' then
        match r with
        | 'r' :: 'u' :: 'e' :: r2 => some (.bool true, r2)
        | _ => none
      else if c = 'f' then
        match r with
        | 'a' :: 'l' :: 's' :: 'e' :: r2 => some (.bool false, r2)
        | _ => none
      else if c = dqC then
        (parseStringBody r).map (fun p => (.str ⟨p.1⟩, p.2))
      else if c = '[' then
        match skipWs r with
        | d :: r2 =>
          if d = ']' then some (.arr [], r2)
          else (parseArrAux (parseValue fuel) fuel r).map (fun p => (.arr p.1, p.2))
        | [] => none
      else if c = lbC then
        match skipWs r with
        | d :: r2 =>
          if d = rbC then some (.obj [], r2)
          else (parseObjAux (parseValue fuel) fuel r).map
            (fun p => (.obj (dedupMembers p.1), p.2))
        | [] => none
      else
        match parseNumber (c :: r) with
        | some (tok, r2) =>
          if numOverflows tok then some (.inf (tokNeg tok), r2)
          else some (.num ⟨tok⟩, r2)
        | none => none

/-- The strict JSON decoder: a whole-input `JSON.parse`.  Returns the
decoded value on success and `none` on a syntax error. -/
def parseJson (s : String) : Option Json :=
  match parseValue (s.data.length + 1) s.data with
  | some (v, rest) => if skipWs rest = [] then some v else none
  | none => none

/-- From the source: `JSON.parse` wrapped in try/catch, returning the
JavaScript value `null` on failure.  The JSON document `null` also decodes
to the JavaScript value `null`, so at this interface the two cases are
indistinguishable; `none` models the JavaScript `null` result. -/
def parseJsonSafely (s : String) : Option Json :=
  match parseJson s with
  | some .null => none
  | r => r

/-- From the source: the flexible parser.  Fast path through the strict
decoder; on failure, apply the six textual rewrite stages and reparse. -/
def parseJsonFlexible (input : String) : Option Json :=
  match parseJsonSafely input with
  | some v => some v
  | none => parseJsonSafely ⟨flexText input.data⟩

/-- Lowercase hexadecimal digit for a value below 16. -/
def hexDigit (n : Nat) : Char :=
  if n < 10 then Char.ofNat (48 + n) else Char.ofNat (87 + n)

/-- `JSON.stringify` escaping of one string character. -/
def escChar (c : Char) : List Char :=
  if c = dqC then [bsC, dqC]
  else if c = bsC then [bsC, bsC]
  else if c = Char.ofNat 8 then [bsC, 'b']
  else if c = Char.ofNat 12 then [bsC, 'f']
  else if c = '\n' then [bsC, 'n']
  else if c = '\r' then [bsC, 'r']
  else if c = '\t' then [bsC, 't']
  else if c.toNat < 32 then
    [bsC, 'u', '0', '0', hexDigit (c.toNat / 16), hexDigit (c.toNat % 16)]
  else [c]

/-- `JSON.stringify` escaping of a string body. -/
def escChars (l : List Char) : List Char := (l.map escChar).flatten

/-- Two spaces: the indentation gap of `JSON.stringify(v, null, 2)`. -/
def sp2 : List Char := [' ', ' ']

mutual

/-- `JSON.stringify(v, null, 2)` at nesting indentation `ind`: the pretty
serialization used by the app for display, clipboard, and download. -/
def printValue : List Char → Json → List Char
  | _, .null => ['n', 'u', 'l', 'l']
  | _, .bool true => ['t', 'r', 'u', 'e']
  | _, .bool false => ['f', 'a', 'l', 's', 'e']
  | _, .num s => s.data
  | _, .inf _ => ['n', 'u', 'l', 'l']
  | _, .str s => dqC :: (escChars s.data ++ [dqC])
  | _, .arr [] => ['[', ']']
  | ind, .arr (x :: t) =>
    '[' :: '\n' :: ((ind ++ sp2) ++
      (printElems (ind ++ sp2) x t ++ '\n' :: (ind ++ [']'])))
  | _, .obj [] => [lbC, rbC]
  | ind, .obj (m :: t) =>
    lbC :: '\n' :: ((ind ++ sp2) ++
      (printMembers (ind ++ sp2) m t ++ '\n' :: (ind ++ [rbC])))
termination_by ind v => sizeOf v
decreasing_by all_goals (simp_wf <;> omega)

/-- Comma-and-newline separated serialization of array elements. -/
def printElems : List Char → Json → List Json → List Char
  | ind, x, [] => printValue ind x
  | ind, x, y :: t =>
    printValue ind x ++ ',' :: '\n' :: (ind ++ printElems ind y t)
termination_by ind x t => sizeOf x + sizeOf t
decreasing_by all_goals (simp_wf <;> omega)

/-- Comma-and-newline separated serialization of object members. -/
def printMembers : List Char → String × Json → List (String × Json) → List Char
  | ind, (k, v), [] =>
    dqC :: (escChars k.data ++ dqC :: ':' :: ' ' :: printValue ind v)
  | ind, (k, v), m :: t =>
    dqC :: (escChars k.data ++ dqC :: ':' :: ' ' :: printValue ind v) ++
      ',' :: '\n' :: (ind ++ printMembers ind m t)
termination_by ind m t => sizeOf m + sizeOf t
decreasing_by all_goals (simp_wf <;> omega)

end

/-- The app's serialization `JSON.stringify(data, null, 2)`. -/
def stringify2 (v : Json) : String := ⟨printValue [] v⟩

mutual

/-- From the source: `extractPaths` — the flat list of addressable paths
of a value, in pre-order document order, excluding the root itself.
Array elements are addressed `base[i]`, object members `base.k` (with no
separator when the base is empty). -/
def extractPaths : Json → String → List String
  | .arr items, base => extractArr items base 0
  | .obj ms, base => extractObj ms base
  | _, _ => []
termination_by v base => sizeOf v
decreasing_by all_goals (simp_wf <;> omega)

/-- Path extraction over array elements starting at index `i`. -/
def extractArr : List Json → String → Nat → List String
  | [], _, _ => []
  | c :: cs, base, i =>
    let next := base ++ "[" ++ toString i ++ "]"
    next :: (extractPaths c next ++ extractArr cs base (i + 1))
termination_by l base i => sizeOf l
decreasing_by all_goals (simp_wf <;> omega)

/-- Path extraction over object members. -/
def extractObj : List (String × Json) → String → List String
  | [], _ => []
  | (k, c) :: t, base =>
    let next := if base = "" then k else base ++ "." ++ k
    next :: (extractPaths c next ++ extractObj t base)
termination_by ms base => sizeOf ms
decreasing_by all_goals (simp_wf <;> omega)

end

/-- JavaScript `String.prototype.toLowerCase` (ASCII case mapping). -/
def toLowerStr (s : String) : String := ⟨s.data.map Char.toLower⟩

/-- JavaScript `String.prototype.trim`: drop whitespace from both ends. -/
def jsTrimStr (s : String) : String :=
  ⟨((s.data.dropWhile isReWs).reverse.dropWhile isReWs).reverse⟩

/-- From the source: `filterPaths` — keep the paths whose lowercased text
contains the trimmed lowercased query; an empty (or all-whitespace) query
keeps everything. -/
def filterPaths (paths : List String) (query : String) : List String :=
  let q := toLowerStr (jsTrimStr query)
  if q = "" then paths
  else paths.filter (fun p => hasSub (toLowerStr p).data q.data)

/-- From the source: `createValuePreview` — the preview text of a scalar
leaf: `null` prints as the word `null`, strings longer than 24 characters
are truncated with an ellipsis, numbers and booleans print canonically,
anything else previews as the empty string. -/
def createValuePreview : Json → String
  | .null => "null"
  | .str s => if 24 < s.length then ⟨s.data.take 24 ++ ['…']⟩ else s
  | .num t => t
  | .inf b => if b then "-Infinity" else "Infinity"
  | .bool b => if b then "true" else "false"
  | _ => ""

/-- A node of the hierarchical path view (`JsonTreeNode` in the source):
key, full path, node type (the source uses the strings `object`, `array`,
`value`), optional value preview, optional children. -/
inductive TreeNode where
  | mk (key : String) (path : String) (ntype : String)
      (valuePreview : Option String) (children : Option (List TreeNode))

/-- Key field of a tree node. -/
def TreeNode.key : TreeNode → String
  | .mk k _ _ _ _ => k

/-- Path field of a tree node. -/
def TreeNode.path : TreeNode → String
  | .mk _ p _ _ _ => p

/-- Type field of a tree node. -/
def TreeNode.ntype : TreeNode → String
  | .mk _ _ t _ _ => t

/-- Value-preview field of a tree node. -/
def TreeNode.valuePreview : TreeNode → Option String
  | .mk _ _ _ vp _ => vp

/-- Children field of a tree node. -/
def TreeNode.children : TreeNode → Option (List TreeNode)
  | .mk _ _ _ _ ch => ch

/-- Split a text at every `.` or `[` (JavaScript `split(/\.|\[/)`); the
separators are dropped and empty segments are kept, so the result is
always nonempty. -/
def splitSeps : List Char → List (List Char)
  | [] => [[]]
  | c :: t =>
    if c = '.' ∨ c = '[' then [] :: splitSeps t
    else
      match splitSeps t with
      | s :: rest => (c :: s) :: rest
      | [] => [[c]]

/-- From the source: `basePath.split(/\.|\[/).pop() || basePath` — the key
of a tree node is the last segment of its path after splitting at `.` and
`[`, falling back to the whole path when that segment is empty. -/
def lastSeg (basePath : String) : String :=
  match (splitSeps basePath.data).getLast? with
  | some s => if s = [] then basePath else ⟨s⟩
  | none => basePath

mutual

/-- From the source: `buildJsonTree` — the hierarchical tree of a value.
Each node's key is `lastSeg` of its path; array children are addressed
`base[i]`, object children `base.k`; leaves carry a value preview. -/
def buildJsonTree : Json → String → TreeNode
  | .arr items, basePath =>
    .mk (lastSeg basePath) basePath "array" none (some (buildArrChildren items basePath 0))
  | .obj ms, basePath =>
    .mk (lastSeg basePath) basePath "object" none (some (buildObjChildren ms basePath))
  | v, basePath =>
    .mk (lastSeg basePath) basePath "value" (some (createValuePreview v)) none
termination_by v basePath => sizeOf v
decreasing_by all_goals (simp_wf <;> omega)

/-- Tree children of an array, starting at index `i`. -/
def buildArrChildren : List Json → String → Nat → List TreeNode
  | [], _, _ => []
  | c :: cs, basePath, i =>
    buildJsonTree c (basePath ++ "[" ++ toString i ++ "]") ::
      buildArrChildren cs basePath (i + 1)
termination_by l basePath i => sizeOf l
decreasing_by all_goals (simp_wf <;> omega)

/-- Tree children of an object. -/
def buildObjChildren : List (String × Json) → String → List TreeNode
  | [], _ => []
  | (k, c) :: t, basePath =>
    buildJsonTree c (basePath ++ "." ++ k) :: buildObjChildren t basePath
termination_by ms basePath => sizeOf ms
decreasing_by all_goals (simp_wf <;> omega)

end

mutual

/-- From the source: `filterTreeByQuery` — prune the tree to the branches
that match the (untrimmed) query: a node matches when its path or its
value preview contains the query case-insensitively; a branch survives
when it matches itself or at least one descendant survives, and it then
keeps only its surviving children. -/
def filterTreeByQuery : TreeNode → String → Option TreeNode
  | .mk k p t vp ch, q =>
    if q = "" then some (.mk k p t vp ch)
    else
      let ql := toLowerStr q
      let selfMatch :=
        hasSub (toLowerStr p).data ql.data ||
          hasSub (toLowerStr (vp.getD "")).data ql.data
      match ch with
      | some cs =>
        if cs.isEmpty then
          if selfMatch then some (.mk k p t vp ch) else none
        else
          let fc := filterTreeChildren cs q
          if ¬fc.isEmpty ∨ selfMatch then some (.mk k p t vp (some fc)) else none
      | none => if selfMatch then some (.mk k p t vp none) else none
termination_by n q => sizeOf n
decreasing_by all_goals (simp_wf <;> omega)

/-- Filter a list of child nodes, dropping the ones pruned away. -/
def filterTreeChildren : List TreeNode → String → List TreeNode
  | [], _ => []
  | c :: t, q =>
    match filterTreeByQuery c q with
    | some x => x :: filterTreeChildren t q
    | none => filterTreeChildren t q
termination_by l q => sizeOf l
decreasing_by all_goals (simp_wf <;> omega)

end

/-- The UI state touched by `applyPastedJson`: the currently displayed
serialized value, the paste buffer, the toast message, and whether the
paste overlay is open. -/
structure AppState where
  rawJson : String
  pasteBuffer : String
  toast : Option String
  isPasteOverlayOpen : Bool

/-- From the source: `applyPastedJson` — trim the paste buffer; an empty
buffer or a buffer the flexible parser rejects only sets a failure toast;
on success the displayed value is replaced by the 2-space serialization,
a success toast is set, and the overlay closes. -/
def applyPastedJson (s : AppState) : AppState :=
  let candidate := jsTrimStr s.pasteBuffer
  if candidate = "" then { s with toast := some "Nothing to paste" }
  else
    match parseJsonFlexible candidate with
    | none => { s with toast := some "Invalid JSON" }
    | some data =>
      { s with rawJson := stringify2 data, toast := some "Pasted JSON",
               isPasteOverlayOpen := false }

/-- An element of a single-quoted string literal body as matched by
`('([^'\\]|\\.)*')`: either a plain character or a backslash escape. -/
inductive SQItem where
  | raw : Char → SQItem
  | esc : Char → SQItem

/-- Validity of a literal-body element: a plain character may not be a
quote or a backslash, an escaped character may not be a line terminator. -/
def SQItem.ok : SQItem → Bool
  | .raw c => !(c = sqC || c = bsC)
  | .esc c => !isLineTerm c

/-- The text of a literal body. -/
def renderSQ : List SQItem → List Char
  | [] => []
  | .raw c :: t => c :: renderSQ t
  | .esc c :: t => bsC :: c :: renderSQ t

/-- Effect of the `\'` unescaping on one literal-body element. -/
def itemUnesc : SQItem → List Char
  | .raw c => [c]
  | .esc c => if c = sqC then [sqC] else [bsC, c]

/-- Integer part of a JSON numeral: `0`, or a nonzero digit followed by
digits. -/
def IntShape (ip : List Char) : Prop :=
  ip = ['0'] ∨
    ∃ c ds, ip = c :: ds ∧ c.isDigit = true ∧ c ≠ '0' ∧ ∀ d ∈ ds, d.isDigit = true

/-- Fraction part of a JSON numeral: absent, or a dot and digits. -/
def FracShape (fp : List Char) : Prop :=
  fp = [] ∨ ∃ ds, fp = '.' :: ds ∧ ds ≠ [] ∧ ∀ d ∈ ds, d.isDigit = true

/-- Exponent part of a JSON numeral: absent, or `e`/`E`, an optional
sign, and digits. -/
def ExpShape (ep : List Char) : Prop :=
  ep = [] ∨
    ∃ e sg ds, ep = e :: (sg ++ ds) ∧ (e = 'e' ∨ e = 'E') ∧
      (sg = [] ∨ sg = ['+'] ∨ sg = ['-']) ∧ ds ≠ [] ∧ ∀ d ∈ ds, d.isDigit = true

/-- A complete JSON numeral token. -/
def NumRep (t : List Char) : Prop :=
  ∃ neg ip fp ep,
    t = neg ++ (ip ++ (fp ++ ep)) ∧ (neg = [] ∨ neg = ['-']) ∧
      IntShape ip ∧ FracShape fp ∧ ExpShape ep

/-- Characters that could extend a preceding numeral token. -/
def extChar (c : Char) : Bool :=
  c.isDigit || c = '.' || c = 'e' || c = 'E' || c = '+' || c = '-'

/-- The text does not begin with a numeral-extending character. -/
def NoExt (l : List Char) : Prop := ∀ c, l.head? = some c → extChar c = false

/-- All characters are JSON whitespace. -/
def AllWs (l : List Char) : Prop := ∀ c ∈ l, jsonWs c = true

/-- Keys of an object member list are pairwise distinct. -/
def NoDupKeys (ms : List (String × Json)) : Prop := (ms.map Prod.fst).Nodup

/-- Well-formedness invariant of every value the strict parser can
produce: numeral tokens have the JSON numeral shape and object keys are
unique. -/
inductive WF : Json → Prop where
  | null : WF .null
  | bool (b : Bool) : WF (.bool b)
  | num (s : String) : NumRep s.data → numOverflows s.data = false →
      WF (.num s)
  | inf (b : Bool) : WF (.inf b)
  | str (s : String) : WF (.str s)
  | arr (items : List Json) : (∀ v ∈ items, WF v) → WF (.arr items)
  | obj (ms : List (String × Json)) : (∀ kv ∈ ms, WF kv.2) → NoDupKeys ms →
      WF (.obj ms)

mutual

/-- Fuel sufficient for `parseValue` to parse a serialization of the
value. -/
def fval : Json → Nat
  | .arr items => 1 + felems items
  | .obj ms => 1 + fmems ms
  | _ => 1
termination_by v => sizeOf v
decreasing_by all_goals (simp_wf <;> omega)

/-- Fuel sufficient for `parseArrAux` over these elements. -/
def felems : List Json → Nat
  | [] => 0
  | v :: t => 1 + fval v + felems t
termination_by l => sizeOf l
decreasing_by all_goals (simp_wf <;> omega)

/-- Fuel sufficient for `parseObjAux` over these members. -/
def fmems : List (String × Json) → Nat
  | [] => 0
  | (_, v) :: t => 1 + fval v + fmems t
termination_by l => sizeOf l
decreasing_by all_goals (simp_wf <;> omega)

end

mutual

/-- No number anywhere in the value overflowed to an infinity. -/
def noInf : Json → Bool
  | .inf _ => false
  | .arr items => noInfElems items
  | .obj ms => noInfMems ms
  | _ => true
termination_by v => sizeOf v
decreasing_by all_goals (simp_wf <;> omega)

/-- `noInf` over array elements. -/
def noInfElems : List Json → Bool
  | [] => true
  | v :: t => noInf v && noInfElems t
termination_by l => sizeOf l
decreasing_by all_goals (simp_wf <;> omega)

/-- `noInf` over object members. -/
def noInfMems : List (String × Json) → Bool
  | [] => true
  | (_, v) :: t => noInf v && noInfMems t
termination_by l => sizeOf l
decreasing_by all_goals (simp_wf <;> omega)

end

/-- The C2 example input, the characters of `{'msg': 'it\'s ok'}`. -/
def c2input : String :=
  ⟨[lbC, sqC, 'm', 's', 'g', sqC, ':', ' ',
    sqC, 'i', 't', bsC, sqC, 's', ' ', 'o', 'k', sqC, rbC]⟩

/-- The C2 expected decoded member value, the characters of `it's ok`. -/
def c2expected : String := ⟨['i', 't', sqC, 's', ' ', 'o', 'k']⟩

theorem strMkData (s : String) : (⟨s.data⟩ : String) = s := rfl

theorem tw_append (p : Char → Bool) (a b : List Char)
    (ha : ∀ c ∈ a, p c = true) (hb : ∀ c, b.head? = some c → p c = false) :
    (a ++ b).takeWhile p = a ∧ (a ++ b).dropWhile p = b := by
  induction a with
  | nil =>
    constructor
    · cases b with
      | nil => rfl
      | cons c t =>
        simp [List.takeWhile, hb c rfl]
    · cases b with
      | nil => rfl
      | cons c t =>
        simp [List.dropWhile, hb c rfl]
  | cons c a ih =>
    have hc : p c = true := ha c (List.mem_cons_self c a)
    have ih2 := ih (fun x hx => ha x (List.mem_cons_of_mem c hx))
    constructor
    · simp [List.takeWhile, hc, ih2.1]
    · simp [List.dropWhile, hc, ih2.2]

/-- C1 counterexample: the document consisting of the single literal
`null` is valid strict JSON (the strict decoder accepts it), yet the
flexible parser returns the failure sentinel for it, because the
JavaScript value `null` doubles as the failure signal. -/
theorem C1_counterexample :
    parseJson "null" = some Json.null ∧ parseJsonFlexible "null" = none :=
  ⟨rfl, rfl⟩

/-- C1 (amended): for every input that is valid strict JSON and whose
decoded value is not the JSON value `null`, the flexible parser succeeds
through the strict fast path and returns exactly the strict decoder's
result. -/
theorem C1_fastpath_equiv (t : String) (v : Json) (hp : parseJson t = some v)
    (hv : v ≠ Json.null) :
    parseJsonFlexible t = some v ∧ parseJsonSafely t = some v := by
  have hs : parseJsonSafely t = some v := by
    unfold parseJsonSafely
    rw [hp]
    cases v with
    | null => exact absurd rfl hv
    | bool b => rfl
    | num s => rfl
    | inf b => rfl
    | str s => rfl
    | arr l => rfl
    | obj ms => rfl
  refine ⟨?_, hs⟩
  unfold parseJsonFlexible
  rw [hs]

/-- C1 witness: a concrete valid JSON object document on which the
amended fast-path equivalence is instantiated. -/
theorem C1_witness :
    parseJson "\x7b\"a\":1\x7d" = some (Json.obj [("a", Json.num "1")]) ∧
    parseJsonFlexible "\x7b\"a\":1\x7d" = some (Json.obj [("a", Json.num "1")]) :=
  ⟨rfl,
    (C1_fastpath_equiv "\x7b\"a\":1\x7d" (Json.obj [("a", Json.num "1")]) rfl
      (fun h => Json.noConfusion h)).1⟩

/-- C9: once the strict fast path fails, the textual rewrites also apply
inside double-quoted string literals.  The input `{"a": "undefined",}` is
rejected by the strict decoder (trailing comma), and the flexible parser
normalizes it to an object whose member `a` holds the string `null`: the
string datum `undefined` was silently replaced. -/
theorem C9_rewrites_inside_strings :
    parseJson "\x7b\"a\": \"undefined\",\x7d" = none ∧
    parseJsonFlexible "\x7b\"a\": \"undefined\",\x7d" =
      some (Json.obj [("a", Json.str "null")]) :=
  ⟨rfl, rfl⟩

/-- C8: failure atomicity of the paste-apply operation.  Whenever the
trimmed paste buffer is empty or the flexible parser rejects it, the
operation only sets a failure toast: the displayed serialized value and
the overlay state are unchanged. -/
theorem C8_failure_atomicity (s : AppState)
    (h : jsTrimStr s.pasteBuffer = "" ∨
      parseJsonFlexible (jsTrimStr s.pasteBuffer) = none) :
    (applyPastedJson s).rawJson = s.rawJson ∧
    (applyPastedJson s).isPasteOverlayOpen = s.isPasteOverlayOpen ∧
    ((applyPastedJson s).toast = some "Nothing to paste" ∨
      (applyPastedJson s).toast = some "Invalid JSON") := by
  unfold applyPastedJson
  rcases h with h | h
  · simp [h]
  · by_cases he : jsTrimStr s.pasteBuffer = ""
    · simp [he]
    · simp [he, h]

/-- C8 witness: the unparseable buffer `not json at all {` leaves the
previously displayed value `prev` unchanged. -/
theorem C8_witness :
    parseJsonFlexible (jsTrimStr "not json at all \x7b") = none ∧
    (applyPastedJson (AppState.mk "prev" "not json at all \x7b" none true)).rawJson =
      "prev" :=
  ⟨rfl,
    (C8_failure_atomicity (AppState.mk "prev" "not json at all \x7b" none true)
      (Or.inr rfl)).1⟩


theorem renderSQ_head_not_sq (items : List SQItem)
    (hok : ∀ it ∈ items, it.ok = true) (b : List Char) (c : Char)
    (h : renderSQ items = c :: b) : ¬ c = sqC := by
  cases items with
  | nil => simp [renderSQ] at h
  | cons it t =>
    cases it with
    | raw d =>
      have hd := hok (.raw d) (List.mem_cons_self _ _)
      simp [SQItem.ok] at hd
      simp [renderSQ] at h
      rw [← h.1]
      exact hd.1
    | esc d =>
      simp [renderSQ] at h
      rw [← h.1]
      decide

theorem unescSq_cons_of_head (c : Char) (l : List Char)
    (h : ∀ b bt, l = b :: bt → ¬ (c = bsC ∧ b = sqC)) :
    unescSq (c :: l) = c :: unescSq l := by
  cases l with
  | nil => rfl
  | cons b bt =>
    rw [unescSq.eq_1]
    rw [if_neg]
    simp only [Bool.and_eq_true, decide_eq_true_eq]
    exact h b bt rfl

theorem unescSq_render (items : List SQItem)
    (hok : ∀ it ∈ items, it.ok = true) :
    unescSq (renderSQ items) = (items.map itemUnesc).flatten := by
  induction items with
  | nil => rfl
  | cons it t ih =>
    have iht := ih (fun x hx => hok x (List.mem_cons_of_mem it hx))
    cases it with
    | raw c =>
      have hc := hok (.raw c) (List.mem_cons_self _ _)
      simp only [SQItem.ok, Bool.not_eq_eq_eq_not, Bool.not_true, Bool.or_eq_false_iff,
        decide_eq_false_iff_not] at hc
      have hstep : unescSq (c :: renderSQ t) = c :: unescSq (renderSQ t) :=
        unescSq_cons_of_head c (renderSQ t) (fun b bt hb hand => hc.2 hand.1)
      simp only [renderSQ, hstep, iht, List.map, List.flatten, itemUnesc]
      rfl
    | esc c =>
      have hc := hok (.esc c) (List.mem_cons_self _ _)
      by_cases hcq : c = sqC
      · subst hcq
        have : unescSq (bsC :: sqC :: renderSQ t) = sqC :: unescSq (renderSQ t) := by
          rw [unescSq.eq_1, if_pos]
          simp
        simp only [renderSQ, this, iht, List.map, List.flatten, itemUnesc]
        simp
      · have h1 : unescSq (bsC :: c :: renderSQ t) = bsC :: unescSq (c :: renderSQ t) := by
          rw [unescSq.eq_1, if_neg]
          simp [hcq]
        have h2 : unescSq (c :: renderSQ t) = c :: unescSq (renderSQ t) := by
          refine unescSq_cons_of_head c (renderSQ t) (fun b bt hb hand => ?_)
          exact renderSQ_head_not_sq t
            (fun x hx => hok x (List.mem_cons_of_mem _ hx)) bt b hb hand.2
        simp only [renderSQ, h1, h2, iht, List.map, List.flatten, itemUnesc]
        simp [hcq]

theorem escDq_eq_flatten (l : List Char) :
    escDq l = (l.map fun c => if c = dqC then [bsC, dqC] else [c]).flatten := by
  induction l with
  | nil => rfl
  | cons c t ih =>
    by_cases hc : c = dqC
    · simp [escDq, hc, ih]
    · simp [escDq, hc, ih]

theorem scanSQBody_render (items : List SQItem)
    (hok : ∀ it ∈ items, it.ok = true) (rest : List Char) :
    scanSQBody (renderSQ items ++ (sqC :: rest)) = some (renderSQ items, rest) := by
  induction items with
  | nil =>
    rw [renderSQ, List.nil_append, scanSQBody.eq_def]
    simp
  | cons it t ih =>
    have iht := ih (fun x hx => hok x (List.mem_cons_of_mem it hx))
    cases it with
    | raw c =>
      have hc := hok (.raw c) (List.mem_cons_self _ _)
      simp only [SQItem.ok, Bool.not_eq_eq_eq_not, Bool.not_true, Bool.or_eq_false_iff,
        decide_eq_false_iff_not] at hc
      rw [renderSQ, List.cons_append, scanSQBody.eq_def]
      simp [hc.1, hc.2, iht]
    | esc c =>
      have hc := hok (.esc c) (List.mem_cons_self _ _)
      simp only [SQItem.ok, Bool.not_eq_eq_eq_not, Bool.not_true,
        decide_eq_false_iff_not] at hc
      rw [renderSQ, List.cons_append, scanSQBody.eq_def]
      have hbs1 : ¬ bsC = sqC := by decide
      simp [hbs1, hc, iht]

theorem rsqF_literal (items : List SQItem)
    (hok : ∀ it ∈ items, it.ok = true) (fuel : Nat) (rest : List Char) :
    rsqF (fuel + 1) (sqC :: (renderSQ items ++ sqC :: rest)) =
      dqC :: (escDq (unescSq (renderSQ items)) ++ dqC :: rsqF fuel rest) := by
  rw [rsqF]
  simp [scanSQBody_render items hok rest]

/-- C2: quote normalization.  The scanner rewrites a single-quoted string
literal (with a backslash-quote pair treated as an escaped quote, not a
terminator) to a double-quoted literal whose body is the inner text with
the escaped quotes unescaped and every literal double quote escaped; and
the example input with the member value `it\'s ok` normalizes to an
object whose member `msg` holds exactly the string `it's ok`. -/
theorem C2_quote_normalization :
    parseJsonFlexible c2input = some (Json.obj [("msg", Json.str c2expected)]) ∧
    (∀ items : List SQItem, (∀ it ∈ items, it.ok = true) →
      (∀ fuel rest, rsqF (fuel + 1) (sqC :: (renderSQ items ++ sqC :: rest)) =
        dqC :: (escDq (unescSq (renderSQ items)) ++ dqC :: rsqF fuel rest)) ∧
      unescSq (renderSQ items) = (items.map itemUnesc).flatten) ∧
    (∀ l, escDq l = (l.map fun c => if c = dqC then [bsC, dqC] else [c]).flatten) := by
  refine ⟨rfl, fun items hok => ⟨fun fuel rest => rsqF_literal items hok fuel rest,
    unescSq_render items hok⟩, escDq_eq_flatten⟩

/-- C2 witness: the general rewrite shape instantiated on the literal
body of the text `it\'s ok` followed by a closing brace. -/
theorem C2_witness :
    (∀ it ∈ [SQItem.raw 'i', SQItem.raw 't', SQItem.esc sqC, SQItem.raw 's',
        SQItem.raw ' ', SQItem.raw 'o', SQItem.raw 'k'], it.ok = true) ∧
    rsqF 1 (sqC :: (renderSQ [SQItem.raw 'i', SQItem.raw 't', SQItem.esc sqC,
        SQItem.raw 's', SQItem.raw ' ', SQItem.raw 'o', SQItem.raw 'k'] ++
        sqC :: [rbC])) =
      dqC :: (escDq (unescSq (renderSQ [SQItem.raw 'i', SQItem.raw 't',
        SQItem.esc sqC, SQItem.raw 's', SQItem.raw ' ', SQItem.raw 'o',
        SQItem.raw 'k'])) ++ dqC :: rsqF 0 [rbC]) :=
  ⟨by decide,
    (C2_quote_normalization.2.1 _ (by decide)).1 0 [rbC]⟩

theorem charEq_iff_toNat (a b : Char) : a = b ↔ a.toNat = b.toNat :=
  ⟨fun h => by rw [h], fun h => Char.ext (UInt32.toNat.inj h)⟩

theorem charLe_iff_toNat (a b : Char) : a ≤ b ↔ a.toNat ≤ b.toNat := by
  rw [Char.le_def, UInt32.le_def, BitVec.le_def]
  rfl

theorem uleN (a b : UInt32) : a ≤ b ↔ a.toNat ≤ b.toNat := by
  rw [UInt32.le_def, BitVec.le_def]
  rfl

theorem valToNat (c : Char) : c.val.toNat = c.toNat := rfl

theorem isReWs_iff (c : Char) : isReWs c = true ↔
    (c.toNat = 32 ∨ c.toNat = 9 ∨ c.toNat = 10 ∨ c.toNat = 13 ∨ c.toNat = 11 ∨
     c.toNat = 12 ∨ c.toNat = 160 ∨ c.toNat = 5760 ∨
     (8192 ≤ c.toNat ∧ c.toNat ≤ 8202) ∨ c.toNat = 8232 ∨
     c.toNat = 8233 ∨ c.toNat = 8239 ∨ c.toNat = 8287 ∨
     c.toNat = 12288 ∨ c.toNat = 65279) := by
  simp only [isReWs, Bool.or_eq_true, Bool.and_eq_true, decide_eq_true_eq,
    charEq_iff_toNat, charLe_iff_toNat,
    show (' ' : Char).toNat = 32 from rfl, show ('\t' : Char).toNat = 9 from rfl,
    show ('\n' : Char).toNat = 10 from rfl, show ('\r' : Char).toNat = 13 from rfl,
    show (Char.ofNat 11).toNat = 11 from rfl,
    show (Char.ofNat 12).toNat = 12 from rfl,
    show (Char.ofNat 160).toNat = 160 from rfl,
    show (Char.ofNat 0x1680).toNat = 5760 from rfl,
    show (Char.ofNat 0x2000).toNat = 8192 from rfl,
    show (Char.ofNat 0x200a).toNat = 8202 from rfl,
    show (Char.ofNat 0x2028).toNat = 8232 from rfl,
    show (Char.ofNat 0x2029).toNat = 8233 from rfl,
    show (Char.ofNat 0x202f).toNat = 8239 from rfl,
    show (Char.ofNat 0x205f).toNat = 8287 from rfl,
    show (Char.ofNat 0x3000).toNat = 12288 from rfl,
    show (Char.ofNat 0xfeff).toNat = 65279 from rfl]
  tauto

theorem isLineTerm_iff (c : Char) : isLineTerm c = true ↔
    (c.toNat = 10 ∨ c.toNat = 13 ∨ c.toNat = 8232 ∨ c.toNat = 8233) := by
  simp only [isLineTerm, Bool.or_eq_true, decide_eq_true_eq, charEq_iff_toNat,
    show ('\n' : Char).toNat = 10 from rfl, show ('\r' : Char).toNat = 13 from rfl,
    show (Char.ofNat 0x2028).toNat = 8232 from rfl,
    show (Char.ofNat 0x2029).toNat = 8233 from rfl]
  tauto

theorem isDigit_iff (c : Char) : c.isDigit = true ↔
    (48 ≤ c.toNat ∧ c.toNat ≤ 57) := by
  simp only [Char.isDigit, Bool.and_eq_true, decide_eq_true_eq, uleN, valToNat,
    show ((48 : UInt32)).toNat = 48 from rfl,
    show ((57 : UInt32)).toNat = 57 from rfl]

theorem isAlpha_iff (c : Char) : c.isAlpha = true ↔
    ((65 ≤ c.toNat ∧ c.toNat ≤ 90) ∨ (97 ≤ c.toNat ∧ c.toNat ≤ 122)) := by
  simp only [Char.isAlpha, Char.isUpper, Char.isLower, Bool.or_eq_true,
    Bool.and_eq_true, decide_eq_true_eq, uleN, valToNat,
    show ((65 : UInt32)).toNat = 65 from rfl,
    show ((90 : UInt32)).toNat = 90 from rfl,
    show ((97 : UInt32)).toNat = 97 from rfl,
    show ((122 : UInt32)).toNat = 122 from rfl]

theorem isIdStart_iff (c : Char) : isIdStart c = true ↔
    ((65 ≤ c.toNat ∧ c.toNat ≤ 90) ∨ (97 ≤ c.toNat ∧ c.toNat ≤ 122) ∨
     c.toNat = 95) := by
  simp only [isIdStart, Bool.or_eq_true, decide_eq_true_eq, isAlpha_iff,
    charEq_iff_toNat, show ('_' : Char).toNat = 95 from rfl]
  tauto

theorem isIdChar_iff (c : Char) : isIdChar c = true ↔
    ((48 ≤ c.toNat ∧ c.toNat ≤ 57) ∨ (65 ≤ c.toNat ∧ c.toNat ≤ 90) ∨
     (97 ≤ c.toNat ∧ c.toNat ≤ 122) ∨ c.toNat = 95 ∨ c.toNat = 45) := by
  simp only [isIdChar, Char.isAlphanum, Bool.or_eq_true, decide_eq_true_eq,
    isAlpha_iff, isDigit_iff, charEq_iff_toNat,
    show ('_' : Char).toNat = 95 from rfl,
    show ('-' : Char).toNat = 45 from rfl]
  tauto

theorem idStart_not_ws (c : Char) (h : isIdStart c = true) : isReWs c = false := by
  rw [isIdStart_iff] at h
  rw [Bool.eq_false_iff]
  intro hw
  rw [isReWs_iff] at hw
  omega

theorem idChar_not_ws (c : Char) (h : isIdChar c = true) : isReWs c = false := by
  rw [isIdChar_iff] at h
  rw [Bool.eq_false_iff]
  intro hw
  rw [isReWs_iff] at hw
  omega

theorem ws_not_idChar (c : Char) (h : isReWs c = true) : isIdChar c = false := by
  rw [isReWs_iff] at h
  rw [Bool.eq_false_iff]
  intro hw
  rw [isIdChar_iff] at hw
  omega

theorem idChar_ne_colon (c : Char) (h : isIdChar c = true) : ¬ c = ':' := by
  intro he
  subst he
  exact absurd h (by decide)

theorem idStart_idChar (c : Char) (h : isIdStart c = true) : isIdChar c = true := by
  rw [isIdStart_iff] at h
  rw [isIdChar_iff]
  omega

theorem scanKey_spec (ws1 idt ws2 ws3 rest : List Char) (c : Char)
    (hws1 : ∀ x ∈ ws1, isReWs x = true) (hws2 : ∀ x ∈ ws2, isReWs x = true)
    (hws3 : ∀ x ∈ ws3, isReWs x = true)
    (hc : isIdStart c = true) (hid : ∀ x ∈ idt, isIdChar x = true)
    (hrest : ∀ x, rest.head? = some x → isReWs x = false) :
    scanKey (ws1 ++ (c :: (idt ++ (ws2 ++ (':' :: (ws3 ++ rest)))))) =
      some (ws1, c :: idt, ws2, ws3, rest) := by
  have h1 := tw_append isReWs ws1 (c :: (idt ++ (ws2 ++ (':' :: (ws3 ++ rest)))))
    hws1 (fun x hx => by
      simp only [List.head?] at hx
      cases hx
      exact idStart_not_ws c hc)
  have h2 := tw_append isIdChar idt (ws2 ++ (':' :: (ws3 ++ rest))) hid
    (fun x hx => by
      cases ws2 with
      | nil =>
        simp only [List.nil_append, List.head?] at hx
        cases hx
        decide
      | cons w wt =>
        simp only [List.cons_append, List.head?, Option.some.injEq] at hx
        subst hx
        exact ws_not_idChar _ (hws2 _ (List.mem_cons_self _ _)))
  have h3 := tw_append isReWs ws2 (':' :: (ws3 ++ rest)) hws2
    (fun x hx => by
      simp only [List.head?] at hx
      cases hx
      decide)
  have h4 := tw_append isReWs ws3 rest hws3 hrest
  rw [scanKey]
  rw [h1.1, h1.2]
  simp only [hc, if_true]
  rw [h2.1, h2.2, h3.1, h3.2]
  simp [h4.1, h4.2]

theorem qkF_site (fuel : Nat) (op c : Char) (ws1 idt ws2 ws3 rest : List Char)
    (hop : op = lbC ∨ op = ',')
    (hws1 : ∀ x ∈ ws1, isReWs x = true) (hws2 : ∀ x ∈ ws2, isReWs x = true)
    (hws3 : ∀ x ∈ ws3, isReWs x = true)
    (hc : isIdStart c = true) (hid : ∀ x ∈ idt, isIdChar x = true)
    (hrest : ∀ x, rest.head? = some x → isReWs x = false) :
    qkF (fuel + 1) (op :: (ws1 ++ (c :: (idt ++ (ws2 ++ (':' :: (ws3 ++ rest))))))) =
      op :: (ws1 ++ (dqC :: ((c :: idt) ++ (dqC ::
        (ws2 ++ (':' :: (ws3 ++ qkF fuel rest))))))) := by
  rw [qkF]
  rw [if_pos (by rcases hop with h | h <;> simp [h])]
  rw [scanKey_spec ws1 idt ws2 ws3 rest c hws1 hws2 hws3 hc hid hrest]

/-- C3: key quoting.  After every `{` or `,` (allowing intervening
whitespace), a bare identifier (letter or underscore first, then letters,
digits, underscore, or hyphen) followed by optional whitespace and a
colon is wrapped in double quotes; and the example input
`{name: "Ann", age: 3}` normalizes to the object with members
`"name": "Ann"` and `"age": 3`. -/
theorem C3_key_quoting :
    parseJsonFlexible "\x7bname: \"Ann\", age: 3\x7d" =
      some (Json.obj [("name", Json.str "Ann"), ("age", Json.num "3")]) ∧
    (∀ (fuel : Nat) (op c : Char) (ws1 idt ws2 ws3 rest : List Char),
      op = lbC ∨ op = ',' →
      (∀ x ∈ ws1, isReWs x = true) → (∀ x ∈ ws2, isReWs x = true) →
      (∀ x ∈ ws3, isReWs x = true) →
      isIdStart c = true → (∀ x ∈ idt, isIdChar x = true) →
      (∀ x, rest.head? = some x → isReWs x = false) →
      qkF (fuel + 1) (op :: (ws1 ++ (c :: (idt ++ (ws2 ++ (':' :: (ws3 ++ rest))))))) =
        op :: (ws1 ++ (dqC :: ((c :: idt) ++ (dqC ::
          (ws2 ++ (':' :: (ws3 ++ qkF fuel rest)))))))) :=
  ⟨rfl, fun fuel op c ws1 idt ws2 ws3 rest hop h1 h2 h3 hc hid hr =>
    qkF_site fuel op c ws1 idt ws2 ws3 rest hop h1 h2 h3 hc hid hr⟩

/-- C3 witness: the general key-quoting shape instantiated on the member
text `age: 3`, preceded by a comma and a space. -/
theorem C3_witness :
    ((',' : Char) = lbC ∨ (',' : Char) = ',') ∧
    isIdStart 'a' = true ∧
    qkF 1 (',' :: ([' '] ++ ('a' :: (['g', 'e'] ++ ([] ++ (':' :: ([' '] ++ ['3']))))))) =
      ',' :: ([' '] ++ (dqC :: (('a' :: ['g', 'e']) ++ (dqC ::
        ([] ++ (':' :: ([' '] ++ qkF 0 ['3']))))))) :=
  ⟨Or.inr rfl, by decide,
    C3_key_quoting.2 0 ',' 'a' [' '] ['g', 'e'] [] [' '] ['3']
      (Or.inr rfl) (by decide) (by decide) (by decide) (by decide) (by decide)
      (by decide)⟩

theorem ws_ne_slash (w : Char) (h : isReWs w = true) : ¬ w = '/' := by
  rw [isReWs_iff] at h
  rw [charEq_iff_toNat]
  simp only [show ('/' : Char).toNat = 47 from rfl]
  omega

theorem findClose_spec (body rest : List Char)
    (h : hasSub body ['*', '/'] = false) :
    findClose (body ++ ('*' :: '/' :: rest)) = some rest := by
  induction body with
  | nil =>
    rw [List.nil_append, findClose.eq_def]
    simp
  | cons c t ih =>
    rw [hasSub] at h
    simp only [Bool.or_eq_false_iff] at h
    have iht := ih (by
      cases t with
      | nil => rfl
      | cons x xs => exact h.2)
    rw [List.cons_append, findClose.eq_def]
    dsimp only
    by_cases hc : c = '*'
    · subst hc
      rw [if_pos rfl]
      cases t with
      | nil =>
        rw [List.nil_append] at iht ⊢
        dsimp only
        rw [if_neg (by decide)]
        exact iht
      | cons d t2 =>
        rw [List.cons_append] at iht ⊢
        dsimp only
        have hd : ¬ d = '/' := by
          intro hd
          subst hd
          simp [matchesAt] at h
        rw [if_neg hd]
        exact iht
    · rw [if_neg hc]
      exact iht

theorem sbcF_block (fuel : Nat) (body rest : List Char)
    (h : hasSub body ['*', '/'] = false) :
    sbcF (fuel + 1) ('/' :: ('*' :: (body ++ ('*' :: '/' :: rest)))) =
      sbcF fuel rest := by
  rw [sbcF]
  rw [if_pos rfl, if_pos rfl, findClose_spec body rest h]

theorem glcF_ws_comment (fuel : Nat) (flag : Bool) (w : Char) (cs tail : List Char)
    (hw : isReWs w = true) (hcs : ∀ x ∈ cs, isLineTerm x = false)
    (htail : ∀ x, tail.head? = some x → isLineTerm x = true) :
    glcF (fuel + 1) flag (w :: ('/' :: ('/' :: (cs ++ tail)))) =
      glcF fuel false tail := by
  have hdrop := tw_append (fun x => !isLineTerm x) ('/' :: '/' :: cs) tail
    (by
      intro x hx
      simp only [List.mem_cons] at hx
      rcases hx with h | h | h
      · subst h; decide
      · subst h; decide
      · simp [hcs x h])
    (fun x hx => by simp [htail x hx])
  rw [glcF]
  rw [if_neg, if_pos]
  · show glcF fuel false (List.dropWhile _ (('/' :: '/' :: cs) ++ tail)) = _
    rw [hdrop.2]
  · simp only [Bool.and_eq_true]
    exact ⟨hw, by rw [twoSlash]; simp⟩
  · simp only [Bool.and_eq_true, not_and]
    intro _
    rw [twoSlash]
    simp
    intro hws
    exact absurd hws (ws_ne_slash w hw)

theorem glcF_linestart_comment (fuel : Nat) (cs tail : List Char)
    (hcs : ∀ x ∈ cs, isLineTerm x = false)
    (htail : ∀ x, tail.head? = some x → isLineTerm x = true) :
    glcF (fuel + 1) true ('/' :: ('/' :: (cs ++ tail))) = glcF fuel false tail := by
  have hdrop := tw_append (fun x => !isLineTerm x) ('/' :: '/' :: cs) tail
    (by
      intro x hx
      simp only [List.mem_cons] at hx
      rcases hx with h | h | h
      · subst h; decide
      · subst h; decide
      · simp [hcs x h])
    (fun x hx => by simp [htail x hx])
  rw [glcF]
  rw [if_pos]
  · show glcF fuel false (List.dropWhile _ (('/' :: '/' :: cs) ++ tail)) = _
    rw [hdrop.2]
  · simp only [Bool.and_eq_true]
    exact ⟨trivial, by rw [twoSlash]; simp⟩

/-- C4 counterexample: in the input whose text is `{"a":1// c` and a
newline and `}`, the `//` marker is directly preceded by the
non-whitespace character `1`, so the line-comment rewrite does not fire
(the regex requires a line start or a whitespace character before `//`):
the comment survives every stage and the flexible parser rejects the
input instead of producing the object with member `a` mapped to 1. -/
theorem C4_counterexample :
    stripLineComments (String.data "\x7b\"a\":1// c\n\x7d") =
      String.data "\x7b\"a\":1// c\n\x7d" ∧
    parseJsonFlexible "\x7b\"a\":1// c\n\x7d" = none :=
  ⟨rfl, rfl⟩

/-- C4 (amended): comment stripping removes every `/* ... */` block
comment (non-nested, shortest match), and a `//` line comment from the
marker to the end of its line whenever the marker is at the start of a
line or immediately preceded by a whitespace character (which is removed
with it); the example inputs `{"a":1 // comment}` (with a newline before
the brace) and `/* c */ {"a":1}` both normalize to the object with member
`a` mapped to 1. -/
theorem C4_comment_stripping :
    parseJsonFlexible "\x7b\"a\":1 // comment\n\x7d" =
      some (Json.obj [("a", Json.num "1")]) ∧
    parseJsonFlexible "/* c */ \x7b\"a\":1\x7d" =
      some (Json.obj [("a", Json.num "1")]) ∧
    (∀ (fuel : Nat) (body rest : List Char), hasSub body ['*', '/'] = false →
      sbcF (fuel + 1) ('/' :: ('*' :: (body ++ ('*' :: '/' :: rest)))) =
        sbcF fuel rest) ∧
    (∀ (fuel : Nat) (flag : Bool) (w : Char) (cs tail : List Char),
      isReWs w = true → (∀ x ∈ cs, isLineTerm x = false) →
      (∀ x, tail.head? = some x → isLineTerm x = true) →
      glcF (fuel + 1) flag (w :: ('/' :: ('/' :: (cs ++ tail)))) =
        glcF fuel false tail) ∧
    (∀ (fuel : Nat) (cs tail : List Char),
      (∀ x ∈ cs, isLineTerm x = false) →
      (∀ x, tail.head? = some x → isLineTerm x = true) →
      glcF (fuel + 1) true ('/' :: ('/' :: (cs ++ tail))) =
        glcF fuel false tail) :=
  ⟨rfl, rfl,
    fun fuel body rest h => sbcF_block fuel body rest h,
    fun fuel flag w cs tail hw hcs ht => glcF_ws_comment fuel flag w cs tail hw hcs ht,
    fun fuel cs tail hcs ht => glcF_linestart_comment fuel cs tail hcs ht⟩

/-- C4 witness: the block-comment rewrite instantiated on `/* c */x` and
the line-comment rewrite instantiated on a space, `// c`, and a newline. -/
theorem C4_witness :
    hasSub [' ', 'c', ' '] ['*', '/'] = false ∧
    sbcF 1 ('/' :: ('*' :: ([' ', 'c', ' '] ++ ('*' :: '/' :: ['x'])))) =
      sbcF 0 ['x'] ∧
    isReWs ' ' = true ∧
    glcF 1 false (' ' :: ('/' :: ('/' :: ([' ', 'c'] ++ ['\n', 'x'])))) =
      glcF 0 false ['\n', 'x'] :=
  ⟨by decide,
    C4_comment_stripping.2.2.1 0 [' ', 'c', ' '] ['x'] (by decide),
    by decide,
    C4_comment_stripping.2.2.2.1 0 false ' ' [' ', 'c'] ['\n', 'x']
      (by decide) (by decide) (by decide)⟩

theorem extractObj_flatMap (ms : List (String × Json)) (base : String)
    (h : ¬ base = "") :
    extractObj ms base = ms.flatMap (fun kv =>
      (base ++ "." ++ kv.1) :: extractPaths kv.2 (base ++ "." ++ kv.1)) := by
  induction ms with
  | nil => simp [extractObj]
  | cons m t ih =>
    obtain ⟨k, v⟩ := m
    rw [extractObj]
    simp only [if_neg h, List.flatMap_cons, ih]
    simp

theorem extractArr_flatMap (items : List Json) (base : String) (i : Nat) :
    extractArr items base i = (items.enumFrom i).flatMap (fun ic =>
      (base ++ "[" ++ toString ic.1 ++ "]") ::
        extractPaths ic.2 (base ++ "[" ++ toString ic.1 ++ "]")) := by
  induction items generalizing i with
  | nil => simp [extractArr]
  | cons c t ih =>
    rw [extractArr]
    simp only [List.enumFrom, List.flatMap_cons, ih (i + 1)]
    simp

/-- C5: path addressing.  An object member named k under a nonempty
parent path P gets path P.k and an array element at index i gets path
P[i], composed recursively in pre-order document order and excluding the
root itself; for the value with one member `users` holding an array of
one object with member `id`, rooted at `data`, the flat path list is
exactly `data.users`, `data.users[0]`, `data.users[0].id`. -/
theorem C5_path_addressing :
    extractPaths (Json.obj [("users", Json.arr [Json.obj [("id", Json.num "1")]])])
      "data" = ["data.users", "data.users[0]", "data.users[0].id"] ∧
    (∀ (ms : List (String × Json)) (base : String), ¬ base = "" →
      extractPaths (Json.obj ms) base = ms.flatMap (fun kv =>
        (base ++ "." ++ kv.1) :: extractPaths kv.2 (base ++ "." ++ kv.1))) ∧
    (∀ (items : List Json) (base : String),
      extractPaths (Json.arr items) base = (items.enumFrom 0).flatMap (fun ic =>
        (base ++ "[" ++ toString ic.1 ++ "]") ::
          extractPaths ic.2 (base ++ "[" ++ toString ic.1 ++ "]"))) := by
  refine ⟨?_, ?_, ?_⟩
  · simp [extractPaths, extractArr, extractObj] <;> decide
  · intro ms base h
    rw [extractPaths, extractObj_flatMap ms base h]
  · intro items base
    rw [extractPaths, extractArr_flatMap items base 0]

/-- C5 witness: the object equation instantiated at the example value and
root label `data`. -/
theorem C5_witness :
    ¬ ("data" : String) = "" ∧
    extractPaths (Json.obj [("users", Json.arr [Json.obj [("id", Json.num "1")]])])
      "data" =
      [("users", Json.arr [Json.obj [("id", Json.num "1")]])].flatMap (fun kv =>
        ("data" ++ "." ++ kv.1) :: extractPaths kv.2 ("data" ++ "." ++ kv.1)) :=
  ⟨by decide, C5_path_addressing.2.1 _ "data" (by decide)⟩

/-- C6 counterexample: for the value with one member `a` holding the
string `xyz`, rooted at `data`, the flat path `data.a` denotes a node
whose value preview is `xyz`, which contains the query `xyz`; the claim
says the path is kept, but the flat filter consults only the path text
and drops it.  (The tree variant does consult the preview and keeps the
node.) -/
theorem C6_counterexample :
    extractPaths (Json.obj [("a", Json.str "xyz")]) "data" = ["data.a"] ∧
    createValuePreview (Json.str "xyz") = "xyz" ∧
    filterPaths ["data.a"] "xyz" = [] ∧
    (filterTreeByQuery (buildJsonTree (Json.obj [("a", Json.str "xyz")]) "data")
      "xyz").isSome = true := by
  refine ⟨?_, ?_, ?_, ?_⟩
  · simp [extractPaths, extractObj]
  · rfl
  · decide
  · simp [buildJsonTree, buildObjChildren, lastSeg, splitSeps, createValuePreview,
      filterTreeByQuery, filterTreeChildren, toLowerStr, hasSub, matchesAt,
      TreeNode.path, TreeNode.valuePreview] <;> decide

/-- C6 (amended): flat-list filtering consults only the path text: a path
is kept exactly when its lowercased text contains the trimmed lowercased
query as a substring, an empty or all-whitespace query keeps every path,
and value previews are never consulted by the flat filter; searching `id`
over the paths of the example value rooted at `data` yields only
`data.users[0].id`. -/
theorem C6_flat_filtering :
    (∀ paths q, jsTrimStr q = "" → filterPaths paths q = paths) ∧
    (∀ paths q p, ¬ toLowerStr (jsTrimStr q) = "" →
      (p ∈ filterPaths paths q ↔ p ∈ paths ∧
        hasSub (toLowerStr p).data (toLowerStr (jsTrimStr q)).data = true)) ∧
    filterPaths ["data.users", "data.users[0]", "data.users[0].id"] "id" =
      ["data.users[0].id"] := by
  refine ⟨?_, ?_, by decide⟩
  · intro paths q h
    rw [filterPaths]
    simp only [h]
    simp [show toLowerStr "" = "" from rfl]
  · intro paths q p h
    rw [filterPaths]
    simp only [if_neg h]
    exact List.mem_filter

/-- C6 witness: filtering with the query `A` keeps the path `data.a`
case-insensitively. -/
theorem C6_witness :
    ¬ toLowerStr (jsTrimStr "A") = "" ∧
    (("data.a" : String) ∈ filterPaths ["data.a"] "A" ↔
      ("data.a" : String) ∈ ["data.a"] ∧
        hasSub (toLowerStr "data.a").data (toLowerStr (jsTrimStr "A")).data = true) :=
  ⟨by decide, C6_flat_filtering.2.1 ["data.a"] "A" "data.a" (by decide)⟩

theorem splitSeps_ne_nil (l : List Char) : splitSeps l ≠ [] := by
  cases l with
  | nil => simp [splitSeps]
  | cons c t =>
    rw [splitSeps]
    by_cases hc : c = '.' ∨ c = '['
    · simp [if_pos hc]
    · rw [if_neg hc]
      cases h : splitSeps t with
      | nil => simp
      | cons s rest => simp

theorem splitSeps_sepFree (k : List Char)
    (h : ∀ c ∈ k, ¬(c = '.' ∨ c = '[')) : splitSeps k = [k] := by
  induction k with
  | nil => rfl
  | cons c t ih =>
    rw [splitSeps, if_neg (h c (List.mem_cons_self c t))]
    rw [ih (fun x hx => h x (List.mem_cons_of_mem c hx))]

theorem splitSeps_len2 (l : List Char) (c : Char) (hc : c = '.' ∨ c = '[')
    (hmem : c ∈ l) : 2 ≤ (splitSeps l).length := by
  induction l with
  | nil => simp at hmem
  | cons a t ih =>
    rw [splitSeps]
    by_cases ha : a = '.' ∨ a = '['
    · rw [if_pos ha]
      have := splitSeps_ne_nil t
      simp only [List.length_cons]
      have : 1 ≤ (splitSeps t).length := by
        cases h : splitSeps t with
        | nil => exact absurd h (splitSeps_ne_nil t)
        | cons x xs => simp
      omega
    · rw [if_neg ha]
      have hmem2 : c ∈ t := by
        rcases List.mem_cons.mp hmem with h | h
        · subst h; exact absurd hc ha
        · exact h
      have iht := ih hmem2
      cases h : splitSeps t with
      | nil => exact absurd h (splitSeps_ne_nil t)
      | cons s rest =>
        rw [h] at iht
        simp only [List.length_cons] at iht ⊢
        omega

theorem splitSeps_last_append (l k : List Char) (c : Char)
    (hc : c = '.' ∨ c = '[') (hk : ∀ x ∈ k, ¬(x = '.' ∨ x = '[')) :
    (splitSeps (l ++ c :: k)).getLast? = some k := by
  induction l with
  | nil =>
    rw [List.nil_append, splitSeps, if_pos hc, splitSeps_sepFree k hk]
    rfl
  | cons a t ih =>
    rw [List.cons_append, splitSeps]
    by_cases ha : a = '.' ∨ a = '['
    · rw [if_pos ha]
      cases h : splitSeps (t ++ c :: k) with
      | nil => exact absurd h (splitSeps_ne_nil _)
      | cons s rest =>
        rw [h] at ih
        rw [List.getLast?_cons_cons]
        exact ih
    · rw [if_neg ha]
      cases h : splitSeps (t ++ c :: k) with
      | nil => exact absurd h (splitSeps_ne_nil _)
      | cons s rest =>
        have hlen := splitSeps_len2 (t ++ c :: k) c hc
          (List.mem_append_right t (List.mem_cons_self c k))
        rw [h] at hlen ih
        cases rest with
        | nil => simp at hlen
        | cons s2 rest2 =>
          rw [List.getLast?_cons_cons] at ih ⊢
          exact ih

theorem strEmpty_iff (s : String) : s = "" ↔ s.data = [] := by
  cases s with
  | mk d =>
    constructor
    · intro h
      rw [h]
    · intro h
      simp only at h
      rw [h]

theorem lastSeg_dot (base k : String) (hk : ¬ k = "")
    (hsep : ∀ c ∈ k.data, ¬(c = '.' ∨ c = '[')) :
    lastSeg (base ++ "." ++ k) = k := by
  rw [lastSeg]
  have hdata : (base ++ "." ++ k).data = base.data ++ '.' :: k.data := by
    rw [String.data_append, String.data_append]
    simp
  rw [hdata, splitSeps_last_append base.data k.data '.' (Or.inl rfl) hsep]
  have hne : ¬ k.data = [] := fun h => hk ((strEmpty_iff k).mpr h)
  simp only [if_neg hne]

theorem lastSeg_bracket (base seg : String)
    (hsep : ∀ c ∈ seg.data, ¬(c = '.' ∨ c = '[')) :
    lastSeg (base ++ "[" ++ seg ++ "]") = seg ++ "]" := by
  rw [lastSeg]
  have hdata : (base ++ "[" ++ seg ++ "]").data =
      base.data ++ '[' :: (seg.data ++ [']']) := by
    rw [String.data_append, String.data_append, String.data_append]
    simp
  have hsep2 : ∀ c ∈ seg.data ++ [']'], ¬(c = '.' ∨ c = '[') := by
    intro c hc
    rcases List.mem_append.mp hc with h | h
    · exact hsep c h
    · simp only [List.mem_singleton] at h
      subst h
      decide
  rw [hdata, splitSeps_last_append base.data (seg.data ++ [']']) '[' (Or.inr rfl) hsep2]
  have hne : ¬ seg.data ++ [']'] = [] := by simp
  simp only [if_neg hne]
  show (⟨seg.data ++ [']']⟩ : String) = seg ++ "]"
  cases seg with
  | mk d => rfl

/-- C10: tree-node keys.  A node's key is its path split at `.` and `[`
with the last segment taken (falling back to the whole path when that
segment is empty); consequently an array element's key is the decimal
index followed by a stray closing bracket (the node at path `data[0]`
has key `0]`), while an object member whose name has no `.` or `[`
gets the bare member name. -/
theorem C10_tree_keys :
    buildJsonTree (Json.arr [Json.null]) "data" =
      TreeNode.mk "data" "data" "array" none
        (some [TreeNode.mk "0]" "data[0]" "value" (some "null") none]) ∧
    (∀ base seg : String, (∀ c ∈ seg.data, ¬(c = '.' ∨ c = '[')) →
      lastSeg (base ++ "[" ++ seg ++ "]") = seg ++ "]") ∧
    (∀ base k : String, ¬ k = "" → (∀ c ∈ k.data, ¬(c = '.' ∨ c = '[')) →
      lastSeg (base ++ "." ++ k) = k) := by
  refine ⟨?_, fun base seg h => lastSeg_bracket base seg h,
    fun base k h1 h2 => lastSeg_dot base k h1 h2⟩
  simp [buildJsonTree, buildArrChildren, lastSeg, splitSeps, createValuePreview] <;>
    decide

/-- C10 witness: the array-key equation instantiated at base `data` and
index text `0`, giving the key `0]`. -/
theorem C10_witness :
    (∀ c ∈ ("0" : String).data, ¬(c = '.' ∨ c = '[')) ∧
    lastSeg ("data" ++ "[" ++ "0" ++ "]") = "0" ++ "]" :=
  ⟨by decide, C10_tree_keys.2.1 "data" "0" (by decide)⟩

theorem jsonWs_iff (c : Char) : jsonWs c = true ↔
    (c.toNat = 32 ∨ c.toNat = 9 ∨ c.toNat = 10 ∨ c.toNat = 13) := by
  simp only [jsonWs, Bool.or_eq_true, decide_eq_true_eq, charEq_iff_toNat,
    show (' ' : Char).toNat = 32 from rfl, show ('\t' : Char).toNat = 9 from rfl,
    show ('\n' : Char).toNat = 10 from rfl, show ('\r' : Char).toNat = 13 from rfl]
  tauto

theorem extChar_iff (c : Char) : extChar c = true ↔
    ((48 ≤ c.toNat ∧ c.toNat ≤ 57) ∨ c.toNat = 46 ∨ c.toNat = 101 ∨
     c.toNat = 69 ∨ c.toNat = 43 ∨ c.toNat = 45) := by
  simp only [extChar, Bool.or_eq_true, decide_eq_true_eq, isDigit_iff,
    charEq_iff_toNat, show ('.' : Char).toNat = 46 from rfl,
    show ('e' : Char).toNat = 101 from rfl, show ('E' : Char).toNat = 69 from rfl,
    show ('+' : Char).toNat = 43 from rfl, show ('-' : Char).toNat = 45 from rfl]
  tauto

theorem jsonWs_not_ext (c : Char) (h : jsonWs c = true) : extChar c = false := by
  rw [jsonWs_iff] at h
  rw [Bool.eq_false_iff]
  intro hx
  rw [extChar_iff] at hx
  omega

theorem skipWs_append_ws (a b : List Char) (ha : ∀ c ∈ a, jsonWs c = true) :
    skipWs (a ++ b) = skipWs b := by
  induction a with
  | nil => rfl
  | cons c t ih =>
    rw [List.cons_append, skipWs, List.dropWhile]
    rw [ha c (List.mem_cons_self c t)]
    exact ih (fun x hx => ha x (List.mem_cons_of_mem c hx))

theorem skipWs_cons_not (c : Char) (l : List Char) (h : jsonWs c = false) :
    skipWs (c :: l) = c :: l := by
  rw [skipWs, List.dropWhile, h]

theorem hexVal_hexDigit : ∀ n, n < 16 → hexVal (hexDigit n) = some n := by
  decide

theorem psbF_dq (fuel : Nat) (rest : List Char) :
    psbF (fuel + 1) (dqC :: rest) = some ([], rest) := by
  rw [psbF.eq_def]
  dsimp only
  rw [if_pos rfl]

theorem psbF_esc (fuel : Nat) (e ch : Char) (rest : List Char)
    (h : escSimple e = some ch) :
    psbF (fuel + 1) (bsC :: e :: rest) =
      (psbF fuel rest).map (fun p => (ch :: p.1, p.2)) := by
  rw [psbF.eq_def]
  dsimp only
  rw [if_neg (by decide), if_pos rfl]
  rw [h]


theorem psbF_raw (fuel : Nat) (c : Char) (rest : List Char) (h1 : ¬ c = dqC)
    (h2 : ¬ c = bsC) (h3 : ¬ c.toNat < 32) :
    psbF (fuel + 1) (c :: rest) =
      (psbF fuel rest).map (fun p => (c :: p.1, p.2)) := by
  rw [psbF.eq_def]
  dsimp only
  rw [if_neg h1, if_neg h2, if_neg h3]

theorem hex4v_eval (a b c d : Char) (na nb nc nd : Nat) (ha : hexVal a = some na)
    (hb : hexVal b = some nb) (hc : hexVal c = some nc) (hd : hexVal d = some nd) :
    hex4v a b c d = some (na * 4096 + nb * 256 + nc * 16 + nd) := by
  rw [hex4v, ha, hb, hc, hd]

theorem uEsc_low (d1 d2 : Char) (n1 n2 : Nat) (rest : List Char)
    (h1 : hexVal d1 = some n1) (h2 : hexVal d2 = some n2)
    (hlt : n1 * 16 + n2 < 2048) :
    uEsc ('0' :: '0' :: d1 :: d2 :: rest) =
      some (Char.ofNat (n1 * 16 + n2), rest) := by
  rw [uEsc, hex4v_eval '0' '0' d1 d2 0 0 n1 n2 rfl rfl h1 h2]
  dsimp only
  rw [if_pos (Or.inl (by omega))]
  have hval : 0 * 4096 + 0 * 256 + n1 * 16 + n2 = n1 * 16 + n2 := by omega
  rw [hval]

theorem psbF_u (fuel : Nat) (rest rest2 : List Char) (ch : Char)
    (h : uEsc rest = some (ch, rest2)) :
    psbF (fuel + 1) (bsC :: 'u' :: rest) =
      (psbF fuel rest2).map (fun p => (ch :: p.1, p.2)) := by
  rw [psbF.eq_def]
  dsimp only
  rw [if_neg (by decide), if_pos rfl]
  rw [show escSimple 'u' = none from rfl]
  dsimp only
  rw [if_pos rfl, h]

theorem escChar_len (c : Char) : 1 ≤ (escChar c).length := by
  rw [escChar]
  split_ifs <;> simp

theorem escChars_len (s : List Char) : s.length ≤ (escChars s).length := by
  induction s with
  | nil => simp [escChars]
  | cons c t ih =>
    show t.length + 1 ≤ ((escChar c ++ escChars t).length)
    rw [List.length_append]
    have := escChar_len c
    omega

theorem psbF_esc_roundtrip (s : List Char) : ∀ (fuel : Nat) (rest : List Char),
    s.length + 1 ≤ fuel →
    psbF fuel (escChars s ++ (dqC :: rest)) = some (s, rest) := by
  induction s with
  | nil =>
    intro fuel rest hf
    cases fuel with
    | zero => omega
    | succ g =>
      show psbF (g + 1) (dqC :: rest) = some ([], rest)
      exact psbF_dq g rest
  | cons c t ih =>
    intro fuel rest hf
    cases fuel with
    | zero => simp at hf
    | succ g =>
      have hg : t.length + 1 ≤ g := by
        simp only [List.length_cons] at hf
        omega
      show psbF (g + 1) ((escChar c ++ escChars t) ++ (dqC :: rest)) = _
      rw [List.append_assoc, escChar]
      by_cases h1 : c = dqC
      · subst h1
        rw [if_pos rfl]
        show psbF (g + 1) (bsC :: dqC :: (escChars t ++ (dqC :: rest))) = _
        rw [psbF_esc g dqC dqC _ (by decide), ih g rest hg]
        rfl
      · rw [if_neg h1]
        by_cases h2 : c = bsC
        · subst h2
          rw [if_pos rfl]
          show psbF (g + 1) (bsC :: bsC :: (escChars t ++ (dqC :: rest))) = _
          rw [psbF_esc g bsC bsC _ (by decide), ih g rest hg]
          rfl
        · rw [if_neg h2]
          by_cases h3 : c = Char.ofNat 8
          · rw [if_pos h3]
            show psbF (g + 1) (bsC :: 'b' :: (escChars t ++ (dqC :: rest))) = _
            rw [psbF_esc g 'b' (Char.ofNat 8) _ (by decide), ih g rest hg, h3]
            rfl
          · rw [if_neg h3]
            by_cases h4 : c = Char.ofNat 12
            · rw [if_pos h4]
              show psbF (g + 1) (bsC :: 'f' :: (escChars t ++ (dqC :: rest))) = _
              rw [psbF_esc g 'f' (Char.ofNat 12) _ (by decide), ih g rest hg, h4]
              rfl
            · rw [if_neg h4]
              by_cases h5 : c = '\n'
              · rw [if_pos h5]
                show psbF (g + 1) (bsC :: 'n' :: (escChars t ++ (dqC :: rest))) = _
                rw [psbF_esc g 'n' '\n' _ (by decide), ih g rest hg, h5]
                rfl
              · rw [if_neg h5]
                by_cases h6 : c = '\r'
                · rw [if_pos h6]
                  show psbF (g + 1) (bsC :: 'r' :: (escChars t ++ (dqC :: rest))) = _
                  rw [psbF_esc g 'r' '\r' _ (by decide), ih g rest hg, h6]
                  rfl
                · rw [if_neg h6]
                  by_cases h7 : c = '\t'
                  · rw [if_pos h7]
                    show psbF (g + 1) (bsC :: 't' :: (escChars t ++ (dqC :: rest))) = _
                    rw [psbF_esc g 't' '\t' _ (by decide), ih g rest hg, h7]
                    rfl
                  · rw [if_neg h7]
                    by_cases h8 : c.toNat < 32
                    · rw [if_pos h8]
                      show psbF (g + 1) (bsC :: 'u' :: ('0' :: '0' ::
                        hexDigit (c.toNat / 16) :: hexDigit (c.toNat % 16) ::
                          (escChars t ++ (dqC :: rest)))) = _
                      rw [psbF_u g _ _ _ (uEsc_low (hexDigit (c.toNat / 16))
                        (hexDigit (c.toNat % 16)) (c.toNat / 16) (c.toNat % 16) _
                        (hexVal_hexDigit _ (by omega)) (hexVal_hexDigit _ (by omega))
                        (by omega))]
                      rw [ih g rest hg]
                      have hval : c.toNat / 16 * 16 + c.toNat % 16 = c.toNat := by
                        omega
                      rw [hval, Char.ofNat_toNat]
                      rfl
                    · rw [if_neg h8]
                      show psbF (g + 1) (c :: (escChars t ++ (dqC :: rest))) = _
                      rw [psbF_raw g c _ h1 h2 h8, ih g rest hg]
                      rfl

theorem parseStringBody_esc (s rest : List Char) :
    parseStringBody (escChars s ++ (dqC :: rest)) = some (s, rest) := by
  rw [parseStringBody]
  apply psbF_esc_roundtrip
  have := escChars_len s
  rw [List.length_append]
  simp only [List.length_cons]
  omega

theorem digit_ne_dot (c : Char) (h : c.isDigit = true) : ¬ c = '.' := by
  rw [isDigit_iff] at h
  rw [charEq_iff_toNat, show ('.' : Char).toNat = 46 from rfl]
  omega

theorem notExt_not_digit (c : Char) (h : extChar c = false) : c.isDigit = false := by
  rw [Bool.eq_false_iff] at h ⊢
  intro hd
  exact h (by rw [extChar]; simp [hd])

theorem notExt_ne_dot (c : Char) (h : extChar c = false) : ¬ c = '.' := by
  intro he
  subst he
  exact absurd h (by decide)

theorem notExt_ne_e (c : Char) (h : extChar c = false) : ¬ (c = 'e' ∨ c = 'E') := by
  intro he
  rcases he with he | he <;> subst he <;> exact absurd h (by decide)

theorem exp_head_facts (e : Char) (h : e = 'e' ∨ e = 'E') :
    e.isDigit = false ∧ ¬ e = '.' := by
  rcases h with h | h <;> subst h <;> exact ⟨by decide, by decide⟩

theorem digit_ne_pm (c : Char) (h : c.isDigit = true) : ¬ (c = '+' ∨ c = '-') := by
  rw [isDigit_iff] at h
  intro hc
  rcases hc with hc | hc <;> subst hc <;> simp at h <;> omega

theorem headNotDigit_of_shapes (fp ep rest : List Char) (hf : FracShape fp)
    (he : ExpShape ep) (hr : NoExt rest) :
    ∀ x, (fp ++ (ep ++ rest)).head? = some x → Char.isDigit x = false := by
  intro x hx
  rcases hf with hf | ⟨ds, hds, hne, hdig⟩
  · subst hf
    rw [List.nil_append] at hx
    rcases he with he | ⟨e, sg, ds, heq, hee, hsg, hne, hdig⟩
    · subst he
      rw [List.nil_append] at hx
      exact notExt_not_digit x (hr x hx)
    · subst heq
      simp only [List.cons_append, List.head?, Option.some.injEq] at hx
      subst hx
      exact (exp_head_facts _ hee).1
  · subst hds
    simp only [List.cons_append, List.head?, Option.some.injEq] at hx
    subst hx
    decide

theorem numFrac_spec (fp ep rest : List Char) (hf : FracShape fp)
    (he : ExpShape ep) (hr : NoExt rest) :
    numFrac (fp ++ (ep ++ rest)) = (fp, ep ++ rest) := by
  rcases hf with hf | ⟨ds, hds, hne, hdig⟩
  · subst hf
    rw [List.nil_append]
    rcases he with he | ⟨e, sg, eds, heq, hee, hsg, hene, hedig⟩
    · subst he
      rw [List.nil_append]
      cases rest with
      | nil => rfl
      | cons c r =>
        rw [numFrac]
        rw [if_neg (notExt_ne_dot c (hr c rfl))]
    · subst heq
      rw [List.cons_append, numFrac]
      rw [if_neg (exp_head_facts _ hee).2]
  · subst hds
    rw [List.cons_append, numFrac]
    rw [if_pos rfl]
    have htw := tw_append Char.isDigit ds (ep ++ rest) hdig
      (headNotDigit_of_shapes [] ep rest (Or.inl rfl) he hr)
    simp only [htw.1, htw.2]
    rw [if_neg hne]

theorem numExp_spec (ep rest : List Char) (he : ExpShape ep) (hr : NoExt rest) :
    numExp (ep ++ rest) = (ep, rest) := by
  rcases he with he | ⟨e, sg, ds, heq, hee, hsg, hne, hdig⟩
  · subst he
    rw [List.nil_append]
    cases rest with
    | nil => rfl
    | cons c r =>
      rw [numExp.eq_def]
      dsimp only
      rw [if_neg (notExt_ne_e c (hr c rfl))]
  · subst heq
    rw [List.cons_append, numExp.eq_def]
    dsimp only
    rw [if_pos hee]
    have htw := tw_append Char.isDigit ds rest hdig
      (fun x hx => notExt_not_digit x (hr x hx))
    rcases hsg with hsg | hsg | hsg
    · subst hsg
      rw [List.nil_append]
      cases ds with
      | nil => exact absurd rfl hne
      | cons d dt =>
        rw [List.cons_append]
        dsimp only
        have hd : d.isDigit = true := hdig d (List.mem_cons_self d dt)
        rw [if_neg (digit_ne_pm d hd)]
        rw [List.cons_append] at htw
        simp only [htw.1, htw.2]
        rw [if_neg (by simp)]
    · subst hsg
      simp only [List.cons_append, List.nil_append]
      simp [htw.1, htw.2, hne]
    · subst hsg
      simp only [List.cons_append, List.nil_append]
      simp [htw.1, htw.2, hne]

theorem parseNumCore_spec (ip fp ep rest : List Char) (hi : IntShape ip)
    (hf : FracShape fp) (he : ExpShape ep) (hr : NoExt rest) :
    parseNumCore (ip ++ (fp ++ (ep ++ rest))) = some (ip ++ (fp ++ ep), rest) := by
  rcases hi with hi | ⟨c, ds, hds, hdig0, hnz, hdig⟩
  · subst hi
    rw [List.cons_append, List.nil_append, parseNumCore.eq_def]
    dsimp only
    rw [if_pos rfl]
    rw [numFrac_spec fp ep rest hf he hr]
    dsimp only
    rw [numExp_spec ep rest he hr]
    simp
  · subst hds
    rw [List.cons_append, parseNumCore.eq_def]
    dsimp only
    rw [if_neg hnz, if_pos hdig0]
    have htw := tw_append Char.isDigit ds (fp ++ (ep ++ rest)) hdig
      (headNotDigit_of_shapes fp ep rest hf he hr)
    simp only [htw.1, htw.2]
    rw [numFrac_spec fp ep rest hf he hr]
    dsimp only
    rw [numExp_spec ep rest he hr]
    simp

theorem intShape_head (ip : List Char) (hi : IntShape ip) :
    ∃ c t, ip = c :: t ∧ c.isDigit = true := by
  rcases hi with hi | ⟨c, ds, hds, hdig0, hnz, hdig⟩
  · exact ⟨'0', [], hi, by decide⟩
  · exact ⟨c, ds, hds, hdig0⟩

theorem digit_ne_minus (c : Char) (h : c.isDigit = true) : ¬ c = '-' := by
  intro he
  exact absurd (digit_ne_pm c h) (by simp [he])

theorem parseNumber_minus (l : List Char) :
    parseNumber ('-' :: l) = (parseNumCore l).map (fun p => ('-' :: p.1, p.2)) := by
  rfl

theorem parseNumber_append (t rest : List Char) (h : NumRep t) (hr : NoExt rest) :
    parseNumber (t ++ rest) = some (t, rest) := by
  obtain ⟨neg, ip, fp, ep, heq, hneg, hi, hf, he⟩ := h
  subst heq
  obtain ⟨c0, t0, hip, hdig0⟩ := intShape_head ip hi
  rcases hneg with hneg | hneg
  · subst hneg
    rw [List.nil_append]
    rw [List.append_assoc, List.append_assoc]
    rw [hip, List.cons_append, parseNumber.eq_def]
    dsimp only
    rw [if_neg (digit_ne_minus c0 hdig0)]
    rw [← List.cons_append, ← hip]
    exact parseNumCore_spec ip fp ep rest hi hf he hr
  · subst hneg
    rw [List.cons_append, List.nil_append, List.cons_append, parseNumber_minus]
    rw [List.append_assoc, List.append_assoc]
    rw [parseNumCore_spec ip fp ep rest hi hf he hr]
    simp

theorem numFrac_shape (l : List Char) : FracShape (numFrac l).1 := by
  cases l with
  | nil => exact Or.inl rfl
  | cons c t =>
    rw [numFrac]
    by_cases hc : c = '.'
    · rw [if_pos hc]
      by_cases hds : t.takeWhile Char.isDigit = []
      · rw [if_pos hds]
        exact Or.inl rfl
      · rw [if_neg hds]
        refine Or.inr ⟨t.takeWhile Char.isDigit, by rw [hc], hds, ?_⟩
        intro d hd
        exact List.mem_takeWhile_imp hd
    · rw [if_neg hc]
      exact Or.inl rfl

theorem numExp_shape (l : List Char) : ExpShape (numExp l).1 := by
  cases l with
  | nil => exact Or.inl rfl
  | cons c t =>
    rw [numExp.eq_def]
    dsimp only
    by_cases hc : c = 'e' ∨ c = 'E'
    · rw [if_pos hc]
      cases t with
      | nil => exact Or.inl rfl
      | cons s t2 =>
        dsimp only
        by_cases hs : s = '+' ∨ s = '-'
        · rw [if_pos hs]
          by_cases hds : t2.takeWhile Char.isDigit = []
          · rw [if_pos hds]
            exact Or.inl rfl
          · rw [if_neg hds]
            refine Or.inr ⟨c, [s], t2.takeWhile Char.isDigit, by simp, hc, ?_, hds,
              fun d hd => List.mem_takeWhile_imp hd⟩
            rcases hs with hs | hs
            · exact Or.inr (Or.inl (by rw [hs]))
            · exact Or.inr (Or.inr (by rw [hs]))
        · rw [if_neg hs]
          by_cases hds : (s :: t2).takeWhile Char.isDigit = []
          · rw [if_pos hds]
            exact Or.inl rfl
          · rw [if_neg hds]
            exact Or.inr ⟨c, [], (s :: t2).takeWhile Char.isDigit, by simp, hc,
              Or.inl rfl, hds, fun d hd => List.mem_takeWhile_imp hd⟩
    · rw [if_neg hc]
      exact Or.inl rfl

theorem parseNumCore_shape (l tok r : List Char)
    (h : parseNumCore l = some (tok, r)) :
    ∃ ip fp ep, tok = ip ++ (fp ++ ep) ∧ IntShape ip ∧ FracShape fp ∧
      ExpShape ep := by
  cases l with
  | nil => exact absurd h (by rw [parseNumCore]; simp)
  | cons c t =>
    rw [parseNumCore.eq_def] at h
    dsimp only at h
    by_cases hc : c = '0'
    · rw [if_pos hc] at h
      rcases hf2 : numFrac t with ⟨f, l2⟩
      rw [hf2] at h
      rcases he2 : numExp l2 with ⟨e, l3⟩
      rw [he2] at h
      dsimp only at h
      injection h with h1
      injection h1 with h1 h2
      refine ⟨['0'], f, e, by rw [← h1]; simp, Or.inl rfl, ?_, ?_⟩
      · have := numFrac_shape t
        rw [hf2] at this
        exact this
      · have := numExp_shape l2
        rw [he2] at this
        exact this
    · rw [if_neg hc] at h
      by_cases hd : c.isDigit = true
      · rw [if_pos hd] at h
        rcases hf2 : numFrac (t.dropWhile Char.isDigit) with ⟨f, l2⟩
        rw [hf2] at h
        rcases he2 : numExp l2 with ⟨e, l3⟩
        rw [he2] at h
        dsimp only at h
        injection h with h1
        injection h1 with h1 h2
        refine ⟨c :: t.takeWhile Char.isDigit, f, e, by rw [← h1]; simp, ?_, ?_, ?_⟩
        · exact Or.inr ⟨c, t.takeWhile Char.isDigit, rfl, hd, hc,
            fun d hdm => List.mem_takeWhile_imp hdm⟩
        · have := numFrac_shape (t.dropWhile Char.isDigit)
          rw [hf2] at this
          exact this
        · have := numExp_shape l2
          rw [he2] at this
          exact this
      · rw [if_neg hd] at h
        exact absurd h (by simp)

theorem parseNumber_shape (l tok r : List Char)
    (h : parseNumber l = some (tok, r)) : NumRep tok := by
  cases l with
  | nil => exact absurd h (by rw [parseNumber]; simp)
  | cons c t =>
    rw [parseNumber.eq_def] at h
    dsimp only at h
    by_cases hc : c = '-'
    · rw [if_pos hc] at h
      cases hcore : parseNumCore t with
      | none => rw [hcore] at h; exact absurd h (by simp)
      | some p =>
        rw [hcore] at h
        obtain ⟨tok0, r0⟩ := p
        simp only [Option.map] at h
        injection h with h1
        injection h1 with h1 h2
        obtain ⟨ip, fp, ep, heq, hi, hf, he⟩ :=
          parseNumCore_shape t tok0 r0 hcore
        exact ⟨['-'], ip, fp, ep, by rw [← h1, heq, hc]; rfl, Or.inr rfl, hi, hf, he⟩
    · rw [if_neg hc] at h
      obtain ⟨ip, fp, ep, heq, hi, hf, he⟩ := parseNumCore_shape (c :: t) tok r h
      exact ⟨[], ip, fp, ep, by rw [heq]; rfl, Or.inl rfl, hi, hf, he⟩

theorem numRep_head (t : List Char) (h : NumRep t) :
    ∃ c t2, t = c :: t2 ∧ (c = '-' ∨ c.isDigit = true) := by
  obtain ⟨neg, ip, fp, ep, heq, hneg, hi, _, _⟩ := h
  obtain ⟨c0, t0, hip, hd⟩ := intShape_head ip hi
  rcases hneg with hneg | hneg
  · subst hneg
    subst heq
    rw [hip]
    exact ⟨c0, t0 ++ (fp ++ ep), by simp, Or.inr hd⟩
  · subst hneg
    subst heq
    exact ⟨'-', ip ++ (fp ++ ep), by simp, Or.inl rfl⟩

theorem setMember_fresh (acc : List (String × Json)) (k : String) (v : Json)
    (h : k ∉ acc.map Prod.fst) : setMember acc k v = acc ++ [(k, v)] := by
  induction acc with
  | nil => rfl
  | cons m t ih =>
    obtain ⟨k0, v0⟩ := m
    simp only [List.map_cons, List.mem_cons, not_or] at h
    rw [setMember]
    rw [if_neg (fun he => h.1 he.symm)]
    rw [ih h.2]
    rfl

theorem dedup_foldl_nodup (ms : List (String × Json)) :
    ∀ acc : List (String × Json), ((acc ++ ms).map Prod.fst).Nodup →
      ms.foldl (fun acc kv => setMember acc kv.1 kv.2) acc = acc ++ ms := by
  induction ms with
  | nil => intro acc _; simp
  | cons m t ih =>
    intro acc h
    obtain ⟨k, v⟩ := m
    rw [List.foldl_cons]
    dsimp only
    have hsplit : ((acc ++ (k, v) :: t).map Prod.fst) =
        acc.map Prod.fst ++ k :: t.map Prod.fst := by simp
    have h0 := h
    rw [hsplit, List.nodup_append] at h
    have hk : k ∉ acc.map Prod.fst := by
      intro hmem
      exact h.2.2 hmem (List.mem_cons_self k (t.map Prod.fst))
    rw [setMember_fresh acc k v hk]
    have hih : (((acc ++ [(k, v)]) ++ t).map Prod.fst).Nodup := by
      have hassoc : (acc ++ [(k, v)]) ++ t = acc ++ (k, v) :: t := by simp
      rw [hassoc]
      exact h0
    rw [ih (acc ++ [(k, v)]) hih]
    simp

theorem dedup_eq_self (ms : List (String × Json)) (h : NoDupKeys ms) :
    dedupMembers ms = ms := by
  rw [dedupMembers]
  rw [dedup_foldl_nodup ms [] (by simpa using h)]
  simp

theorem setMember_mem (acc : List (String × Json)) (k : String) (v : Json) :
    ∀ kv ∈ setMember acc k v, kv ∈ acc ∨ kv = (k, v) := by
  induction acc with
  | nil =>
    intro kv hkv
    rw [setMember] at hkv
    exact Or.inr (List.mem_singleton.mp hkv)
  | cons m t ih =>
    intro kv hkv
    obtain ⟨k0, v0⟩ := m
    rw [setMember] at hkv
    by_cases he : k0 = k
    · rw [if_pos he] at hkv
      rcases List.mem_cons.mp hkv with h1 | h1
      · exact Or.inr h1
      · exact Or.inl (List.mem_cons_of_mem _ h1)
    · rw [if_neg he] at hkv
      rcases List.mem_cons.mp hkv with h1 | h1
      · exact Or.inl (h1 ▸ List.mem_cons_self _ _)
      · rcases ih kv h1 with h2 | h2
        · exact Or.inl (List.mem_cons_of_mem _ h2)
        · exact Or.inr h2

theorem setMember_keys (acc : List (String × Json)) (k : String) (v : Json) :
    (setMember acc k v).map Prod.fst =
      if k ∈ acc.map Prod.fst then acc.map Prod.fst
      else acc.map Prod.fst ++ [k] := by
  induction acc with
  | nil => simp [setMember]
  | cons m t ih =>
    obtain ⟨k0, v0⟩ := m
    rw [setMember]
    by_cases he : k0 = k
    · rw [if_pos he]
      subst he
      simp
    · rw [if_neg he]
      simp only [List.map_cons, List.mem_cons]
      rw [ih]
      by_cases hm : k ∈ t.map Prod.fst
      · rw [if_pos hm, if_pos (Or.inr hm)]
      · rw [if_neg hm]
        rw [if_neg (by
          intro hx
          rcases hx with hx | hx
          · exact he hx.symm
          · exact hm hx)]
        simp

theorem setMember_nodup (acc : List (String × Json)) (k : String) (v : Json)
    (h : NoDupKeys acc) : NoDupKeys (setMember acc k v) := by
  rw [NoDupKeys, setMember_keys]
  by_cases hm : k ∈ acc.map Prod.fst
  · rw [if_pos hm]; exact h
  · rw [if_neg hm]
    rw [List.nodup_append]
    exact ⟨h, List.nodup_singleton k,
      fun a ha hb => hm ((List.mem_singleton.mp hb) ▸ ha)⟩

theorem dedup_nodup_aux (ms : List (String × Json)) :
    ∀ acc, NoDupKeys acc →
      NoDupKeys (ms.foldl (fun acc kv => setMember acc kv.1 kv.2) acc) := by
  induction ms with
  | nil => intro acc h; exact h
  | cons m t ih =>
    intro acc h
    rw [List.foldl_cons]
    exact ih _ (setMember_nodup acc m.1 m.2 h)

theorem dedup_nodup (ms : List (String × Json)) : NoDupKeys (dedupMembers ms) :=
  dedup_nodup_aux ms [] (List.nodup_nil)

theorem dedup_mem_aux (ms : List (String × Json)) :
    ∀ acc kv, kv ∈ ms.foldl (fun acc kv => setMember acc kv.1 kv.2) acc →
      kv ∈ acc ∨ kv ∈ ms := by
  induction ms with
  | nil => intro acc kv h; exact Or.inl h
  | cons m t ih =>
    intro acc kv h
    rw [List.foldl_cons] at h
    rcases ih _ kv h with h1 | h1
    · rcases setMember_mem acc m.1 m.2 kv h1 with h2 | h2
      · exact Or.inl h2
      · exact Or.inr (h2 ▸ List.mem_cons_self m t)
    · exact Or.inr (List.mem_cons_of_mem m h1)

theorem dedup_mem (ms : List (String × Json)) :
    ∀ kv ∈ dedupMembers ms, kv ∈ ms := by
  intro kv h
  rcases dedup_mem_aux ms [] kv h with h1 | h1
  · exact absurd h1 (List.not_mem_nil kv)
  · exact h1

theorem parseArrAux_WF (pv : List Char → Option (Json × List Char))
    (hpv : ∀ l v r, pv l = some (v, r) → WF v) :
    ∀ fuel l vs r, parseArrAux pv fuel l = some (vs, r) → ∀ v ∈ vs, WF v := by
  intro fuel
  induction fuel with
  | zero => intro l vs r h; exact absurd h (by rw [parseArrAux]; simp)
  | succ fuel ih =>
    intro l vs r h
    rw [parseArrAux.eq_def] at h
    dsimp only at h
    cases hp : pv l with
    | none => rw [hp] at h; exact absurd h (by simp)
    | some p =>
      rw [hp] at h
      obtain ⟨v0, r0⟩ := p
      dsimp only at h
      cases hsw : skipWs r0 with
      | nil => rw [hsw] at h; exact absurd h (by simp)
      | cons c r2 =>
        rw [hsw] at h
        dsimp only at h
        by_cases hc : c = ','
        · rw [if_pos hc] at h
          cases hrec : parseArrAux pv fuel r2 with
          | none => rw [hrec] at h; exact absurd h (by simp)
          | some q =>
            rw [hrec] at h
            obtain ⟨vs2, r3⟩ := q
            simp only [Option.map] at h
            injection h with h1
            injection h1 with h1 h2
            intro v hv
            rw [← h1] at hv
            rcases List.mem_cons.mp hv with hv | hv
            · exact hv ▸ hpv l v0 r0 hp
            · exact ih r2 vs2 r3 hrec v hv
        · rw [if_neg hc] at h
          by_cases hb : c = ']'
          · rw [if_pos hb] at h
            injection h with h1
            injection h1 with h1 h2
            intro v hv
            rw [← h1] at hv
            exact (List.mem_singleton.mp hv) ▸ hpv l v0 r0 hp
          · rw [if_neg hb] at h
            exact absurd h (by simp)

theorem parseObjAux_WF (pv : List Char → Option (Json × List Char))
    (hpv : ∀ l v r, pv l = some (v, r) → WF v) :
    ∀ fuel l ms r, parseObjAux pv fuel l = some (ms, r) →
      ∀ kv ∈ ms, WF kv.2 := by
  intro fuel
  induction fuel with
  | zero => intro l ms r h; exact absurd h (by rw [parseObjAux]; simp)
  | succ fuel ih =>
    intro l ms r h
    rw [parseObjAux.eq_def] at h
    dsimp only at h
    cases hsw : skipWs l with
    | nil => rw [hsw] at h; exact absurd h (by simp)
    | cons c r0 =>
      rw [hsw] at h
      dsimp only at h
      by_cases hc : c = dqC
      · rw [if_pos hc] at h
        cases hps : parseStringBody r0 with
        | none => rw [hps] at h; exact absurd h (by simp)
        | some p =>
          rw [hps] at h
          obtain ⟨kcs, r1⟩ := p
          dsimp only at h
          cases hsw2 : skipWs r1 with
          | nil => rw [hsw2] at h; exact absurd h (by simp)
          | cons d r2 =>
            rw [hsw2] at h
            dsimp only at h
            by_cases hd : d = ':'
            · rw [if_pos hd] at h
              cases hp2 : pv r2 with
              | none => rw [hp2] at h; exact absurd h (by simp)
              | some q =>
                rw [hp2] at h
                obtain ⟨v0, r3⟩ := q
                dsimp only at h
                cases hsw3 : skipWs r3 with
                | nil => rw [hsw3] at h; exact absurd h (by simp)
                | cons e r4 =>
                  rw [hsw3] at h
                  dsimp only at h
                  by_cases he : e = ','
                  · rw [if_pos he] at h
                    cases hrec : parseObjAux pv fuel r4 with
                    | none => rw [hrec] at h; exact absurd h (by simp)
                    | some q2 =>
                      rw [hrec] at h
                      obtain ⟨ms2, r5⟩ := q2
                      simp only [Option.map] at h
                      injection h with h1
                      injection h1 with h1 h2
                      intro kv hkv
                      rw [← h1] at hkv
                      rcases List.mem_cons.mp hkv with hkv | hkv
                      · rw [hkv]
                        exact hpv r2 v0 r3 hp2
                      · exact ih r4 ms2 r5 hrec kv hkv
                  · rw [if_neg he] at h
                    by_cases hb : e = rbC
                    · rw [if_pos hb] at h
                      injection h with h1
                      injection h1 with h1 h2
                      intro kv hkv
                      rw [← h1] at hkv
                      rw [List.mem_singleton.mp hkv]
                      exact hpv r2 v0 r3 hp2
                    · rw [if_neg hb] at h
                      exact absurd h (by simp)
            · rw [if_neg hd] at h
              exact absurd h (by simp)
      · rw [if_neg hc] at h
        exact absurd h (by simp)

theorem parseValue_WF (fuel : Nat) :
    ∀ l v r, parseValue fuel l = some (v, r) → WF v := by
  induction fuel with
  | zero => intro l v r h; exact absurd h (by rw [parseValue]; simp)
  | succ fuel ih =>
    intro l v r h
    rw [parseValue.eq_def] at h
    dsimp only at h
    cases hsw : skipWs l with
    | nil => rw [hsw] at h; exact absurd h (by simp)
    | cons c r0 =>
      rw [hsw] at h
      dsimp only at h
      by_cases hn : c = 'n'
      · rw [if_pos hn] at h
        split at h
        · injection h with h1
          injection h1 with h1 h2
          rw [← h1]
          exact WF.null
        · exact absurd h (by simp)
      · rw [if_neg hn] at h
        by_cases ht : c = 't'
        · rw [if_pos ht] at h
          split at h
          · injection h with h1
            injection h1 with h1 h2
            rw [← h1]
            exact WF.bool true
          · exact absurd h (by simp)
        · rw [if_neg ht] at h
          by_cases hf : c = 'f'
          · rw [if_pos hf] at h
            split at h
            · injection h with h1
              injection h1 with h1 h2
              rw [← h1]
              exact WF.bool false
            · exact absurd h (by simp)
          · rw [if_neg hf] at h
            by_cases hq : c = dqC
            · rw [if_pos hq] at h
              cases hps : parseStringBody r0 with
              | none => rw [hps] at h; exact absurd h (by simp)
              | some p =>
                rw [hps] at h
                simp only [Option.map] at h
                injection h with h1
                injection h1 with h1 h2
                rw [← h1]
                exact WF.str _
            · rw [if_neg hq] at h
              by_cases hlb : c = '['
              · rw [if_pos hlb] at h
                cases hsw2 : skipWs r0 with
                | nil => rw [hsw2] at h; exact absurd h (by simp)
                | cons d r2 =>
                  rw [hsw2] at h
                  dsimp only at h
                  by_cases hd : d = ']'
                  · rw [if_pos hd] at h
                    injection h with h1
                    injection h1 with h1 h2
                    rw [← h1]
                    exact WF.arr [] (by intro v hv; exact absurd hv (List.not_mem_nil v))
                  · rw [if_neg hd] at h
                    cases ha : parseArrAux (parseValue fuel) fuel r0 with
                    | none => rw [ha] at h; exact absurd h (by simp)
                    | some p =>
                      rw [ha] at h
                      simp only [Option.map] at h
                      injection h with h1
                      injection h1 with h1 h2
                      rw [← h1]
                      exact WF.arr p.1
                        (parseArrAux_WF (parseValue fuel) ih fuel r0 p.1 p.2
                          (by rw [← ha]))
              · rw [if_neg hlb] at h
                by_cases hob : c = lbC
                · rw [if_pos hob] at h
                  cases hsw2 : skipWs r0 with
                  | nil => rw [hsw2] at h; exact absurd h (by simp)
                  | cons d r2 =>
                    rw [hsw2] at h
                    dsimp only at h
                    by_cases hd : d = rbC
                    · rw [if_pos hd] at h
                      injection h with h1
                      injection h1 with h1 h2
                      rw [← h1]
                      exact WF.obj []
                        (by intro kv hkv; exact absurd hkv (List.not_mem_nil kv))
                        (List.nodup_nil)
                    · rw [if_neg hd] at h
                      cases ho : parseObjAux (parseValue fuel) fuel r0 with
                      | none => rw [ho] at h; exact absurd h (by simp)
                      | some p =>
                        rw [ho] at h
                        simp only [Option.map] at h
                        injection h with h1
                        injection h1 with h1 h2
                        rw [← h1]
                        refine WF.obj (dedupMembers p.1) ?_ (dedup_nodup p.1)
                        intro kv hkv
                        exact parseObjAux_WF (parseValue fuel) ih fuel r0 p.1 p.2
                          (by rw [← ho]) kv (dedup_mem p.1 kv hkv)
                · rw [if_neg hob] at h
                  cases hnum : parseNumber (c :: r0) with
                  | none => rw [hnum] at h; exact absurd h (by simp)
                  | some p =>
                    rw [hnum] at h
                    obtain ⟨tok, r2⟩ := p
                    dsimp only at h
                    by_cases hov : numOverflows tok = true
                    · rw [if_pos hov] at h
                      injection h with h1
                      injection h1 with h1 h2
                      rw [← h1]
                      exact WF.inf (tokNeg tok)
                    · rw [if_neg hov] at h
                      injection h with h1
                      injection h1 with h1 h2
                      rw [← h1]
                      exact WF.num ⟨tok⟩
                        (parseNumber_shape (c :: r0) tok r2 hnum)
                        (Bool.eq_false_iff.mpr hov)

theorem numHead_dispatch (c : Char) (h : c = '-' ∨ c.isDigit = true) :
    jsonWs c = false ∧ ¬ c = 'n' ∧ ¬ c = 't' ∧ ¬ c = 'f' ∧ ¬ c = dqC ∧
      ¬ c = '[' ∧ ¬ c = lbC ∧ ¬ c = ']' ∧ ¬ c = rbC := by
  have hr : 45 ≤ c.toNat ∧ c.toNat ≤ 57 := by
    rcases h with h | h
    · rw [charEq_iff_toNat, show ('-' : Char).toNat = 45 from rfl] at h
      omega
    · rw [isDigit_iff] at h
      omega
  refine ⟨?_, ?_⟩
  · rw [Bool.eq_false_iff]
    intro hw
    rw [jsonWs_iff] at hw
    omega
  · simp only [charEq_iff_toNat,
      show ('n' : Char).toNat = 110 from rfl,
      show ('t' : Char).toNat = 116 from rfl,
      show ('f' : Char).toNat = 102 from rfl,
      show dqC.toNat = 34 from rfl,
      show ('[' : Char).toNat = 91 from rfl,
      show lbC.toNat = 123 from rfl,
      show (']' : Char).toNat = 93 from rfl,
      show rbC.toNat = 125 from rfl]
    omega

theorem printValue_head (v : Json) (h : WF v) (ind : List Char) :
    ∃ c t2, printValue ind v = c :: t2 ∧ jsonWs c = false ∧
      ¬ c = ']' ∧ ¬ c = rbC := by
  cases v with
  | null => exact ⟨'n', ['u', 'l', 'l'], by simp [printValue], by decide,
      by decide, by decide⟩
  | bool b =>
    cases b with
    | true => exact ⟨'t', ['r', 'u', 'e'], by simp [printValue], by decide,
        by decide, by decide⟩
    | false => exact ⟨'f', ['a', 'l', 's', 'e'], by simp [printValue],
        by decide, by decide, by decide⟩
  | num s =>
    cases h with
    | num _ hnum _ =>
      obtain ⟨c, t2, heq, hc⟩ := numRep_head s.data hnum
      obtain ⟨hws, _, _, _, _, _, _, h8, h9⟩ := numHead_dispatch c hc
      exact ⟨c, t2, by simp [printValue, heq], hws, h8, h9⟩
  | inf b =>
    exact ⟨'n', ['u', 'l', 'l'], by simp [printValue], by decide, by decide,
      by decide⟩
  | str s =>
    exact ⟨dqC, escChars s.data ++ [dqC], by simp [printValue], by decide,
      by decide, by decide⟩
  | arr items =>
    cases items with
    | nil => exact ⟨'[', [']'], by simp [printValue], by decide, by decide,
        by decide⟩
    | cons x t =>
      exact ⟨'[', '\n' :: ((ind ++ sp2) ++
        (printElems (ind ++ sp2) x t ++ '\n' :: (ind ++ [']']))),
        by simp [printValue], by decide, by decide, by decide⟩
  | obj ms =>
    cases ms with
    | nil => exact ⟨lbC, [rbC], by simp [printValue], by decide, by decide,
        by decide⟩
    | cons m t =>
      exact ⟨lbC, '\n' :: ((ind ++ sp2) ++
        (printMembers (ind ++ sp2) m t ++ '\n' :: (ind ++ [rbC]))),
        by simp [printValue], by decide, by decide, by decide⟩

theorem fval_pos (v : Json) : 1 ≤ fval v := by
  cases v <;> simp [fval]

theorem felems_le_print (ind : List Char) :
    ∀ (t : List Json) (x : Json),
      (∀ y ∈ x :: t, ∀ ind2 : List Char, fval y ≤ (printValue ind2 y).length) →
      felems (x :: t) ≤ (printElems ind x t).length + 1 := by
  intro t
  induction t with
  | nil =>
    intro x hx
    have hb := hx x (List.mem_cons_self x []) ind
    simp only [felems, printElems]
    omega
  | cons y t2 ih =>
    intro x hx
    have hb := hx x (List.mem_cons_self x (y :: t2)) ind
    have hih := ih y (fun z hz ind2 => hx z (List.mem_cons_of_mem x hz) ind2)
    simp only [felems, printElems, List.length_append, List.length_cons]
    simp only [felems] at hih
    omega

theorem fmems_le_print (ind : List Char) :
    ∀ (t : List (String × Json)) (m : String × Json),
      (∀ kv ∈ m :: t, ∀ ind2 : List Char,
        fval kv.2 ≤ (printValue ind2 kv.2).length) →
      fmems (m :: t) ≤ (printMembers ind m t).length := by
  intro t
  induction t with
  | nil =>
    intro m hx
    obtain ⟨k, v⟩ := m
    have hb := hx (k, v) (List.mem_cons_self (k, v) []) ind
    dsimp only at hb
    simp only [fmems, printMembers, List.length_append, List.length_cons]
    omega
  | cons m2 t2 ih =>
    intro m hx
    obtain ⟨k, v⟩ := m
    have hb := hx (k, v) (List.mem_cons_self (k, v) (m2 :: t2)) ind
    dsimp only at hb
    have hih := ih m2 (fun z hz ind2 => hx z (List.mem_cons_of_mem (k, v) hz) ind2)
    simp only [fmems, printMembers, List.length_append, List.length_cons]
    simp only [fmems] at hih
    omega

theorem fval_le_aux : ∀ (n : Nat) (v : Json), sizeOf v ≤ n → WF v →
    ∀ ind : List Char, fval v ≤ (printValue ind v).length := by
  intro n
  induction n with
  | zero =>
    intro v hs
    exfalso
    cases v <;> simp at hs
  | succ n ih =>
    intro v hs hwf ind
    cases v with
    | null => simp [fval, printValue]
    | bool b => cases b <;> simp [fval, printValue]
    | num s =>
      cases hwf with
      | num _ hnum _ =>
        obtain ⟨c, t2, heq, _⟩ := numRep_head s.data hnum
        simp only [fval, printValue, heq, List.length_cons]
        omega
    | inf b => simp [fval, printValue]
    | str s =>
      simp only [fval, printValue, List.length_cons, List.length_append]
      omega
    | arr items =>
      cases items with
      | nil => simp [fval, felems, printValue]
      | cons x t =>
        have hel : ∀ y ∈ x :: t, ∀ ind2 : List Char,
            fval y ≤ (printValue ind2 y).length := by
          intro y hy ind2
          refine ih y ?_ ?_ ind2
          · have h1 := List.sizeOf_lt_of_mem hy
            have h2 : sizeOf (Json.arr (x :: t)) = 1 + sizeOf (x :: t) := by simp
            omega
          · cases hwf with
            | arr _ hall => exact hall y hy
        have hb := felems_le_print (ind ++ sp2) t x hel
        simp only [fval, printValue, List.length_cons, List.length_append]
        omega
    | obj ms =>
      cases ms with
      | nil => simp [fval, fmems, printValue]
      | cons m t =>
        have hel : ∀ kv ∈ m :: t, ∀ ind2 : List Char,
            fval kv.2 ≤ (printValue ind2 kv.2).length := by
          intro kv hkv ind2
          refine ih kv.2 ?_ ?_ ind2
          · have h1 := List.sizeOf_lt_of_mem hkv
            have h2 : sizeOf (Json.obj (m :: t)) = 1 + sizeOf (m :: t) := by simp
            have h3 : sizeOf kv.2 < sizeOf kv := by
              obtain ⟨k, v⟩ := kv
              simp <;> omega
            omega
          · cases hwf with
            | obj _ hall _ => exact hall kv hkv
        have hb := fmems_le_print (ind ++ sp2) t m hel
        simp only [fval, printValue, List.length_cons, List.length_append]
        omega

theorem fval_le (v : Json) (h : WF v) (ind : List Char) :
    fval v ≤ (printValue ind v).length :=
  fval_le_aux (sizeOf v) v (Nat.le_refl _) h ind

theorem noExt_nil : NoExt [] := by
  intro c hc
  simp at hc

theorem noExt_cons (c : Char) (r : List Char) (h : extChar c = false) :
    NoExt (c :: r) := by
  intro d hd
  simp only [List.head?_cons, Option.some.injEq] at hd
  rw [← hd]
  exact h

theorem noExt_ws_append (w : List Char) (hw : AllWs w) (l : List Char)
    (h : NoExt l) : NoExt (w ++ l) := by
  cases w with
  | nil => exact h
  | cons c t =>
    exact noExt_cons c (t ++ l) (jsonWs_not_ext c (hw c (List.mem_cons_self c t)))

theorem allWs_nil : AllWs [] := fun c hc => absurd hc (List.not_mem_nil c)

theorem allWs_cons (c : Char) (w : List Char) (hc : jsonWs c = true)
    (hw : AllWs w) : AllWs (c :: w) := by
  intro d hd
  rcases List.mem_cons.mp hd with h | h
  · rw [h]
    exact hc
  · exact hw d h

theorem allWs_append (a b : List Char) (ha : AllWs a) (hb : AllWs b) :
    AllWs (a ++ b) := by
  intro c hc
  rcases List.mem_append.mp hc with h | h
  · exact ha c h
  · exact hb c h

theorem allWs_sp2 : AllWs sp2 := by
  intro c hc
  simp [sp2] at hc
  rw [hc]
  decide

theorem fval_le_felems (t : List Json) : ∀ y ∈ t, fval y ≤ felems t := by
  induction t with
  | nil => intro y hy; exact absurd hy (List.not_mem_nil y)
  | cons x t2 ih =>
    intro y hy
    simp only [felems]
    rcases List.mem_cons.mp hy with h | h
    · subst h
      omega
    · have := ih y h
      omega

theorem fval_le_fmems (t : List (String × Json)) :
    ∀ kv ∈ t, fval kv.2 ≤ fmems t := by
  induction t with
  | nil => intro kv hkv; exact absurd hkv (List.not_mem_nil kv)
  | cons m t2 ih =>
    intro kv hkv
    obtain ⟨k, v⟩ := m
    simp only [fmems]
    rcases List.mem_cons.mp hkv with h | h
    · subst h
      dsimp only
      omega
    · have := ih kv h
      omega

theorem noInfElems_mem (l : List Json) (h : noInfElems l = true) :
    ∀ y ∈ l, noInf y = true := by
  induction l with
  | nil => intro y hy; exact absurd hy (List.not_mem_nil y)
  | cons x t ih =>
    intro y hy
    simp only [noInfElems, Bool.and_eq_true] at h
    rcases List.mem_cons.mp hy with h1 | h1
    · rw [h1]
      exact h.1
    · exact ih h.2 y h1

theorem noInfMems_mem (l : List (String × Json)) (h : noInfMems l = true) :
    ∀ kv ∈ l, noInf kv.2 = true := by
  induction l with
  | nil => intro kv hkv; exact absurd hkv (List.not_mem_nil kv)
  | cons m t ih =>
    intro kv hkv
    obtain ⟨k, v⟩ := m
    simp only [noInfMems, Bool.and_eq_true] at h
    rcases List.mem_cons.mp hkv with h1 | h1
    · rw [h1]
      exact h.1
    · exact ih h.2 kv h1

theorem parseArrAux_roundtrip (F : Nat)
    (hpv : ∀ (v : Json) (ind lead rest : List Char), WF v → noInf v = true →
      fval v ≤ F → AllWs ind → AllWs lead → NoExt rest →
      parseValue F (lead ++ (printValue ind v ++ rest)) = some (v, rest)) :
    ∀ (t : List Json) (x : Json) (afuel : Nat) (ind lead wtail rest : List Char),
      WF x → (∀ y ∈ t, WF y) →
      noInf x = true → (∀ y ∈ t, noInf y = true) →
      fval x ≤ F → (∀ y ∈ t, fval y ≤ F) →
      felems (x :: t) ≤ afuel →
      AllWs ind → AllWs lead → AllWs wtail →
      parseArrAux (parseValue F) afuel
        (lead ++ (printElems ind x t ++ (wtail ++ (']' :: rest)))) =
        some (x :: t, rest) := by
  intro t
  induction t with
  | nil =>
    intro x afuel ind lead wtail rest hwx _ hnx _ hfx _ hfa hind hlead hwt
    cases afuel with
    | zero =>
      simp only [felems] at hfa
      omega
    | succ af =>
      rw [parseArrAux.eq_def]
      dsimp only
      simp only [printElems]
      have hne : NoExt (wtail ++ (']' :: rest)) :=
        noExt_ws_append wtail hwt _ (noExt_cons ']' rest (by decide))
      rw [hpv x ind lead (wtail ++ (']' :: rest)) hwx hnx hfx hind hlead hne]
      dsimp only
      rw [skipWs_append_ws wtail _ hwt, skipWs_cons_not ']' rest (by decide)]
      simp
  | cons y t2 ih =>
    intro x afuel ind lead wtail rest hwx hwt2 hnx hnt2 hfx hft2 hfa hind
      hlead hwt
    cases afuel with
    | zero =>
      simp only [felems] at hfa
      omega
    | succ af =>
      rw [parseArrAux.eq_def]
      dsimp only
      simp only [printElems, List.append_assoc, List.cons_append]
      have hne : NoExt (',' :: '\n' ::
          (ind ++ (printElems ind y t2 ++ (wtail ++ (']' :: rest))))) :=
        noExt_cons ',' _ (by decide)
      rw [hpv x ind lead _ hwx hnx hfx hind hlead hne]
      dsimp only
      rw [skipWs_cons_not ',' _ (by decide)]
      dsimp only
      rw [if_pos rfl]
      have hrec := ih y af ind ('\n' :: ind) wtail rest
        (hwt2 y (List.mem_cons_self y t2))
        (fun z hz => hwt2 z (List.mem_cons_of_mem y hz))
        (hnt2 y (List.mem_cons_self y t2))
        (fun z hz => hnt2 z (List.mem_cons_of_mem y hz))
        (hft2 y (List.mem_cons_self y t2))
        (fun z hz => hft2 z (List.mem_cons_of_mem y hz))
        (by
          simp only [felems] at hfa ⊢
          have := fval_pos x
          omega)
        hind (allWs_cons '\n' ind (by decide) hind) hwt
      rw [List.cons_append] at hrec
      rw [hrec]
      simp

theorem parseObjAux_roundtrip (F : Nat)
    (hpv : ∀ (v : Json) (ind lead rest : List Char), WF v → noInf v = true →
      fval v ≤ F → AllWs ind → AllWs lead → NoExt rest →
      parseValue F (lead ++ (printValue ind v ++ rest)) = some (v, rest)) :
    ∀ (t : List (String × Json)) (m : String × Json) (afuel : Nat)
      (ind lead wtail rest : List Char),
      WF m.2 → (∀ kv ∈ t, WF kv.2) →
      noInf m.2 = true → (∀ kv ∈ t, noInf kv.2 = true) →
      fval m.2 ≤ F → (∀ kv ∈ t, fval kv.2 ≤ F) →
      fmems (m :: t) ≤ afuel →
      AllWs ind → AllWs lead → AllWs wtail →
      parseObjAux (parseValue F) afuel
        (lead ++ (printMembers ind m t ++ (wtail ++ (rbC :: rest)))) =
        some (m :: t, rest) := by
  intro t
  induction t with
  | nil =>
    intro m afuel ind lead wtail rest hwx _ hnx _ hfx _ hfa hind hlead hwt
    obtain ⟨k, v⟩ := m
    cases afuel with
    | zero =>
      simp only [fmems] at hfa
      omega
    | succ af =>
      rw [parseObjAux.eq_def]
      dsimp only
      simp only [printMembers, List.append_assoc, List.cons_append]
      rw [skipWs_append_ws lead _ hlead, skipWs_cons_not dqC _ (by decide)]
      dsimp only
      rw [if_pos rfl]
      rw [parseStringBody_esc]
      dsimp only
      rw [skipWs_cons_not ':' _ (by decide)]
      dsimp only
      rw [if_pos rfl]
      have hne : NoExt (wtail ++ (rbC :: rest)) :=
        noExt_ws_append wtail hwt _ (noExt_cons rbC rest (by decide))
      have hv := hpv v ind [' '] (wtail ++ (rbC :: rest)) hwx hnx hfx hind
        (by intro c hc; simp at hc; rw [hc]; decide) hne
      rw [List.singleton_append] at hv
      rw [hv]
      dsimp only
      rw [skipWs_append_ws wtail _ hwt, skipWs_cons_not rbC rest (by decide)]
      dsimp only
      rw [if_neg (show ¬ rbC = ',' from by decide), if_pos rfl]
  | cons m2 t3 ih =>
    intro m afuel ind lead wtail rest hwx hwt3 hnx hnt3 hfx hft3 hfa hind
      hlead hwt
    obtain ⟨k, v⟩ := m
    cases afuel with
    | zero =>
      simp only [fmems] at hfa
      omega
    | succ af =>
      rw [parseObjAux.eq_def]
      dsimp only
      simp only [printMembers, List.append_assoc, List.cons_append]
      rw [skipWs_append_ws lead _ hlead, skipWs_cons_not dqC _ (by decide)]
      dsimp only
      rw [if_pos rfl]
      rw [parseStringBody_esc]
      dsimp only
      rw [skipWs_cons_not ':' _ (by decide)]
      dsimp only
      rw [if_pos rfl]
      have hne : NoExt (',' :: '\n' ::
          (ind ++ (printMembers ind m2 t3 ++ (wtail ++ (rbC :: rest))))) :=
        noExt_cons ',' _ (by decide)
      have hv := hpv v ind [' '] _ hwx hnx hfx hind
        (by intro c hc; simp at hc; rw [hc]; decide) hne
      rw [List.singleton_append] at hv
      rw [hv]
      dsimp only
      rw [skipWs_cons_not ',' _ (by decide)]
      dsimp only
      rw [if_pos rfl]
      have hrec := ih m2 af ind ('\n' :: ind) wtail rest
        (hwt3 m2 (List.mem_cons_self m2 t3))
        (fun z hz => hwt3 z (List.mem_cons_of_mem m2 hz))
        (hnt3 m2 (List.mem_cons_self m2 t3))
        (fun z hz => hnt3 z (List.mem_cons_of_mem m2 hz))
        (hft3 m2 (List.mem_cons_self m2 t3))
        (fun z hz => hft3 z (List.mem_cons_of_mem m2 hz))
        (by
          simp only [fmems] at hfa ⊢
          have := fval_pos v
          omega)
        hind (allWs_cons '\n' ind (by decide) hind) hwt
      rw [List.cons_append] at hrec
      rw [hrec]
      simp


theorem printMembers_head (ind : List Char) (k : String) (v : Json)
    (t : List (String × Json)) :
    ∃ w, printMembers ind (k, v) t = dqC :: w := by
  cases t with
  | nil =>
    exact ⟨escChars k.data ++ dqC :: ':' :: ' ' :: printValue ind v,
      by simp only [printMembers]⟩
  | cons m2 t2 =>
    exact ⟨(escChars k.data ++ dqC :: ':' :: ' ' :: printValue ind v) ++
      ',' :: '\n' :: (ind ++ printMembers ind m2 t2),
      by simp only [printMembers, List.cons_append]⟩

theorem parseValue_roundtrip (fuel : Nat) :
    ∀ (v : Json) (ind lead rest : List Char), WF v → noInf v = true →
      fval v ≤ fuel → AllWs ind → AllWs lead → NoExt rest →
      parseValue fuel (lead ++ (printValue ind v ++ rest)) = some (v, rest) := by
  induction fuel with
  | zero =>
    intro v _ _ _ _ _ hf _ _ _
    have := fval_pos v
    omega
  | succ fuel ih =>
    intro v ind lead rest hwf hni hf hind hlead hrest
    cases v with
    | null =>
      rw [parseValue.eq_def]
      dsimp only
      simp only [printValue, List.cons_append, List.nil_append]
      rw [skipWs_append_ws lead _ hlead, skipWs_cons_not 'n' _ (by decide)]
      simp
    | bool b =>
      cases b with
      | true =>
        rw [parseValue.eq_def]
        dsimp only
        simp only [printValue, List.cons_append, List.nil_append]
        rw [skipWs_append_ws lead _ hlead, skipWs_cons_not 't' _ (by decide)]
        simp
      | false =>
        rw [parseValue.eq_def]
        dsimp only
        simp only [printValue, List.cons_append, List.nil_append]
        rw [skipWs_append_ws lead _ hlead, skipWs_cons_not 'f' _ (by decide)]
        simp
    | num s =>
      cases hwf with
      | num _ hnum hov =>
        obtain ⟨c0, t2, hdata, hc0⟩ := numRep_head s.data hnum
        obtain ⟨hws0, hn, ht, hf2, hq, hlb, hob, _, _⟩ := numHead_dispatch c0 hc0
        rw [parseValue.eq_def]
        dsimp only
        simp only [printValue]
        rw [skipWs_append_ws lead _ hlead]
        rw [hdata, List.cons_append, skipWs_cons_not c0 _ hws0]
        dsimp only
        rw [if_neg hn, if_neg ht, if_neg hf2, if_neg hq, if_neg hlb, if_neg hob]
        rw [← List.cons_append, ← hdata]
        rw [parseNumber_append s.data rest hnum hrest]
        dsimp only
        rw [hov, if_neg Bool.false_ne_true]
    | inf b =>
      simp only [noInf] at hni
      exact absurd hni Bool.false_ne_true
    | str s =>
      rw [parseValue.eq_def]
      dsimp only
      simp only [printValue, List.cons_append, List.append_assoc,
        List.singleton_append, List.nil_append]
      rw [skipWs_append_ws lead _ hlead, skipWs_cons_not dqC _ (by decide)]
      dsimp only
      rw [if_neg (show ¬ dqC = 'n' from by decide),
        if_neg (show ¬ dqC = 't' from by decide),
        if_neg (show ¬ dqC = 'f' from by decide), if_pos rfl]
      rw [parseStringBody_esc]
      rfl
    | arr items =>
      cases items with
      | nil =>
        rw [parseValue.eq_def]
        dsimp only
        simp only [printValue, List.cons_append, List.nil_append]
        rw [skipWs_append_ws lead _ hlead, skipWs_cons_not '[' _ (by decide)]
        dsimp only
        rw [if_neg (show ¬ ('[' : Char) = 'n' from by decide),
          if_neg (show ¬ ('[' : Char) = 't' from by decide),
          if_neg (show ¬ ('[' : Char) = 'f' from by decide),
          if_neg (show ¬ ('[' : Char) = dqC from by decide), if_pos rfl]
        rw [skipWs_cons_not ']' rest (by decide)]
        simp
      | cons x t =>
        have hwall : ∀ y ∈ x :: t, WF y := by
          cases hwf with
          | arr _ hall => exact hall
        have hniall : ∀ y ∈ x :: t, noInf y = true := by
          apply noInfElems_mem (x :: t)
          simp only [noInf] at hni
          exact hni
        have hfall : felems (x :: t) ≤ fuel := by
          simp only [fval] at hf
          omega
        have hfx : fval x ≤ fuel := by
          have := fval_le_felems (x :: t) x (List.mem_cons_self x t)
          omega
        have hfel : ∀ y ∈ t, fval y ≤ fuel := by
          intro y hy
          have h1 := fval_le_felems (x :: t) y (List.mem_cons_of_mem x hy)
          omega
        obtain ⟨c0, w0, hpe, hc0ws, hc0b, _⟩ :=
          printValue_head x (hwall x (List.mem_cons_self x t)) (ind ++ sp2)
        have hpeh : ∃ w1, printElems (ind ++ sp2) x t = c0 :: w1 := by
          cases t with
          | nil => exact ⟨w0, by simp only [printElems]; exact hpe⟩
          | cons y t2 =>
            refine ⟨w0 ++ ',' :: '\n' ::
              ((ind ++ sp2) ++ printElems (ind ++ sp2) y t2), ?_⟩
            simp only [printElems]
            rw [hpe]
            simp
        obtain ⟨w1, hpe1⟩ := hpeh
        have hWws : AllWs ('\n' :: (ind ++ sp2)) :=
          allWs_cons '\n' (ind ++ sp2) (by decide)
            (allWs_append ind sp2 hind allWs_sp2)
        rw [parseValue.eq_def]
        dsimp only
        simp only [printValue, List.cons_append, List.append_assoc,
          List.singleton_append, List.nil_append]
        rw [skipWs_append_ws lead _ hlead, skipWs_cons_not '[' _ (by decide)]
        dsimp only
        rw [if_neg (show ¬ ('[' : Char) = 'n' from by decide),
          if_neg (show ¬ ('[' : Char) = 't' from by decide),
          if_neg (show ¬ ('[' : Char) = 'f' from by decide),
          if_neg (show ¬ ('[' : Char) = dqC from by decide), if_pos rfl]
        have hsw2 : skipWs ('\n' :: (ind ++ (sp2 ++
            (printElems (ind ++ sp2) x t ++
              '\n' :: (ind ++ (']' :: rest)))))) =
            c0 :: (w1 ++ ('\n' :: (ind ++ (']' :: rest)))) := by
          have h1 : ('\n' :: (ind ++ (sp2 ++
              (printElems (ind ++ sp2) x t ++
                '\n' :: (ind ++ (']' :: rest)))))) =
              ('\n' :: (ind ++ sp2)) ++
                (printElems (ind ++ sp2) x t ++
                  ('\n' :: (ind ++ (']' :: rest)))) := by
            simp
          rw [h1, skipWs_append_ws _ _ hWws, hpe1, List.cons_append,
            skipWs_cons_not c0 _ hc0ws]
        rw [hsw2]
        dsimp only
        rw [if_neg hc0b]
        have hra := parseArrAux_roundtrip fuel ih t x fuel (ind ++ sp2)
          ('\n' :: (ind ++ sp2)) ('\n' :: ind) rest
          (hwall x (List.mem_cons_self x t))
          (fun y hy => hwall y (List.mem_cons_of_mem x hy))
          (hniall x (List.mem_cons_self x t))
          (fun y hy => hniall y (List.mem_cons_of_mem x hy))
          hfx hfel hfall
          (allWs_append ind sp2 hind allWs_sp2)
          hWws
          (allWs_cons '\n' ind (by decide) hind)
        simp only [List.cons_append, List.append_assoc] at hra
        rw [hra]
        rfl
    | obj ms =>
      cases ms with
      | nil =>
        rw [parseValue.eq_def]
        dsimp only
        simp only [printValue, List.cons_append, List.nil_append]
        rw [skipWs_append_ws lead _ hlead, skipWs_cons_not lbC _ (by decide)]
        dsimp only
        rw [if_neg (show ¬ lbC = 'n' from by decide),
          if_neg (show ¬ lbC = 't' from by decide),
          if_neg (show ¬ lbC = 'f' from by decide),
          if_neg (show ¬ lbC = dqC from by decide),
          if_neg (show ¬ lbC = '[' from by decide), if_pos rfl]
        rw [skipWs_cons_not rbC rest (by decide)]
        dsimp only
        rw [if_pos rfl]
      | cons m t =>
        obtain ⟨k, v0⟩ := m
        have hwall : ∀ kv ∈ (k, v0) :: t, WF kv.2 := by
          cases hwf with
          | obj _ hall _ => exact hall
        have hniall : ∀ kv ∈ (k, v0) :: t, noInf kv.2 = true := by
          apply noInfMems_mem ((k, v0) :: t)
          simp only [noInf] at hni
          exact hni
        have hnd : NoDupKeys ((k, v0) :: t) := by
          cases hwf with
          | obj _ _ hnd2 => exact hnd2
        have hfall : fmems ((k, v0) :: t) ≤ fuel := by
          simp only [fval] at hf
          omega
        have hfx : fval v0 ≤ fuel := by
          have := fval_le_fmems ((k, v0) :: t) (k, v0)
            (List.mem_cons_self (k, v0) t)
          dsimp only at this
          omega
        have hfel : ∀ kv ∈ t, fval kv.2 ≤ fuel := by
          intro kv hkv
          have h1 := fval_le_fmems ((k, v0) :: t) kv
            (List.mem_cons_of_mem (k, v0) hkv)
          omega
        obtain ⟨w1, hpm⟩ := printMembers_head (ind ++ sp2) k v0 t
        have hWws : AllWs ('\n' :: (ind ++ sp2)) :=
          allWs_cons '\n' (ind ++ sp2) (by decide)
            (allWs_append ind sp2 hind allWs_sp2)
        rw [parseValue.eq_def]
        dsimp only
        simp only [printValue, List.cons_append, List.append_assoc,
          List.singleton_append, List.nil_append]
        rw [skipWs_append_ws lead _ hlead, skipWs_cons_not lbC _ (by decide)]
        dsimp only
        rw [if_neg (show ¬ lbC = 'n' from by decide),
          if_neg (show ¬ lbC = 't' from by decide),
          if_neg (show ¬ lbC = 'f' from by decide),
          if_neg (show ¬ lbC = dqC from by decide),
          if_neg (show ¬ lbC = '[' from by decide), if_pos rfl]
        have hsw2 : skipWs ('\n' :: (ind ++ (sp2 ++
            (printMembers (ind ++ sp2) (k, v0) t ++
              '\n' :: (ind ++ (rbC :: rest)))))) =
            dqC :: (w1 ++ ('\n' :: (ind ++ (rbC :: rest)))) := by
          have h1 : ('\n' :: (ind ++ (sp2 ++
              (printMembers (ind ++ sp2) (k, v0) t ++
                '\n' :: (ind ++ (rbC :: rest)))))) =
              ('\n' :: (ind ++ sp2)) ++
                (printMembers (ind ++ sp2) (k, v0) t ++
                  ('\n' :: (ind ++ (rbC :: rest)))) := by
            simp
          rw [h1, skipWs_append_ws _ _ hWws, hpm, List.cons_append,
            skipWs_cons_not dqC _ (by decide)]
        rw [hsw2]
        dsimp only
        rw [if_neg (show ¬ dqC = rbC from by decide)]
        have hrm := parseObjAux_roundtrip fuel ih t (k, v0) fuel (ind ++ sp2)
          ('\n' :: (ind ++ sp2)) ('\n' :: ind) rest
          (hwall (k, v0) (List.mem_cons_self (k, v0) t))
          (fun z hz => hwall z (List.mem_cons_of_mem (k, v0) hz))
          (hniall (k, v0) (List.mem_cons_self (k, v0) t))
          (fun z hz => hniall z (List.mem_cons_of_mem (k, v0) hz))
          hfx hfel hfall
          (allWs_append ind sp2 hind allWs_sp2)
          hWws
          (allWs_cons '\n' ind (by decide) hind)
        simp only [List.cons_append, List.append_assoc] at hrm
        rw [hrm]
        simp only [Option.map]
        rw [dedup_eq_self ((k, v0) :: t) hnd]


theorem parseJson_roundtrip (v : Json) (h : WF v) (hni : noInf v = true) :
    parseJson (stringify2 v) = some v := by
  rw [parseJson, stringify2]
  have hb := fval_le v h []
  have hrv := parseValue_roundtrip ((printValue [] v).length + 1) v [] [] []
    h hni (by omega) allWs_nil allWs_nil noExt_nil
  rw [List.nil_append, List.append_nil] at hrv
  have hd : (⟨printValue [] v⟩ : String).data = printValue [] v := rfl
  rw [hd, hrv]
  rfl

theorem parseJsonSafely_inv (s : String) (v : Json)
    (h : parseJsonSafely s = some v) :
    parseJson s = some v ∧ ¬ v = Json.null := by
  rw [parseJsonSafely] at h
  cases hp : parseJson s with
  | none => rw [hp] at h; exact absurd h (by simp)
  | some w =>
    rw [hp] at h
    cases w with
    | null => exact absurd h (by simp)
    | bool b =>
      injection h with h1
      exact ⟨by rw [h1], by rw [← h1]; simp⟩
    | inf b =>
      injection h with h1
      exact ⟨by rw [h1], by rw [← h1]; simp⟩
    | num s2 =>
      injection h with h1
      exact ⟨by rw [h1], by rw [← h1]; simp⟩
    | str s2 =>
      injection h with h1
      exact ⟨by rw [h1], by rw [← h1]; simp⟩
    | arr l =>
      injection h with h1
      exact ⟨by rw [h1], by rw [← h1]; simp⟩
    | obj ms2 =>
      injection h with h1
      exact ⟨by rw [h1], by rw [← h1]; simp⟩

theorem parseJsonSafely_of (s : String) (v : Json) (hp : parseJson s = some v)
    (hv : ¬ v = Json.null) : parseJsonSafely s = some v := by
  rw [parseJsonSafely, hp]
  cases v with
  | null => exact absurd rfl hv
  | bool b => rfl
  | num s2 => rfl
  | inf b => rfl
  | str s2 => rfl
  | arr l => rfl
  | obj ms2 => rfl

theorem parseJson_WF (s : String) (v : Json) (h : parseJson s = some v) :
    WF v := by
  rw [parseJson] at h
  cases hp : parseValue (s.data.length + 1) s.data with
  | none => rw [hp] at h; exact absurd h (by simp)
  | some p =>
    rw [hp] at h
    obtain ⟨v0, rest⟩ := p
    dsimp only at h
    by_cases hs : skipWs rest = []
    · rw [if_pos hs] at h
      injection h with h1
      rw [← h1]
      exact parseValue_WF _ _ _ _ hp
    · rw [if_neg hs] at h
      exact absurd h (by simp)

/-- C7 counterexample: the numeral `1e999` overflows the IEEE double
format, so the normalizer accepts it and yields `Infinity`;
`JSON.stringify` serializes the non-finite number as `null`, and
re-normalizing that serialization returns the failure sentinel (the
document `null` decodes to the JavaScript value `null`, which doubles as
the failure signal).  The program therefore violates
`normalize (serialize (normalize t)) = normalize t` at `t = "1e999"`. -/
theorem C7_counterexample :
    parseJsonFlexible "1e999" = some (Json.inf false) ∧
    stringify2 (Json.inf false) = "null" ∧
    parseJsonFlexible (stringify2 (Json.inf false)) = none := by
  have h2 : stringify2 (Json.inf false) = "null" := by
    simp [stringify2, printValue]
  refine ⟨?_, h2, ?_⟩
  · rfl
  · rw [h2]
    rfl

/-- C7 (amended): the normalizer is idempotent on its own successful
output as long as no numeral overflowed: whenever the flexible parser
accepts `t` with value `v` and `v` contains no infinity, re-normalizing
the 2-space-indented serialization of `v` succeeds and yields the same
value: `normalize (serialize (normalize t)) = normalize t`. -/
theorem C7_idempotent (t : String) (v : Json)
    (h : parseJsonFlexible t = some v) (hni : noInf v = true) :
    parseJsonFlexible (stringify2 v) = some v := by
  have hsv : ∃ s, parseJsonSafely s = some v := by
    rw [parseJsonFlexible] at h
    cases hf : parseJsonSafely t with
    | some w =>
      rw [hf] at h
      exact ⟨t, by rw [hf]; exact h⟩
    | none =>
      rw [hf] at h
      exact ⟨⟨flexText t.data⟩, h⟩
  obtain ⟨s, hs⟩ := hsv
  obtain ⟨hp, hv⟩ := parseJsonSafely_inv s v hs
  have hwf := parseJson_WF s v hp
  have hrt := parseJson_roundtrip v hwf hni
  have hsafe : parseJsonSafely (stringify2 v) = some v :=
    parseJsonSafely_of (stringify2 v) v hrt hv
  rw [parseJsonFlexible, hsafe]

/-- C7 witness: the amended idempotence theorem instantiated on the
concrete document `[1]`, whose flexible parse is the one-element array
holding the finite numeral `1`. -/
theorem C7_witness :
    parseJsonFlexible "[1]" = some (Json.arr [Json.num "1"]) ∧
    noInf (Json.arr [Json.num "1"]) = true ∧
    parseJsonFlexible (stringify2 (Json.arr [Json.num "1"])) =
      some (Json.arr [Json.num "1"]) :=
  ⟨by rfl, by simp [noInf, noInfElems],
    C7_idempotent "[1]" (Json.arr [Json.num "1"]) (by rfl)
      (by simp [noInf, noInfElems])⟩
